import Mathlib

/-!
# Verification of the counterpoint search core (`my_project.counterpoint`)

A shallow embedding of the final-iteration counterpoint engine of the
repository: the pitch/interval model (`my_project/model.py`), the shared
utilities (`my_project/util.py`), the contexts, move generators, validators
and the state machine of `my_project/counterpoint/`.

Conventions of the embedding:
* Python code that can raise (`assert`, `raise`, list indexing, `min` of an
  empty list, dataclass `__post_init__` checks) is modelled with `Option`:
  `none` is an uncaught exception, `some` a normal return.
* Durations and offsets are `Fraction`s in the source; in the counterpoint
  core every duration is an integral number of quarter notes
  (`RythmnType.note_duration() ∈ {1, 2, 4}`, measures total 4), so they are
  modelled as integers.
* A handful of small helpers are referenced by the source but their
  definitions are not under src/ (`Pitch.num`, `Interval.abs`, `Offset.of`,
  `Offset.idx_1`, `Offset.add_duration`, `IntervalStep.__mul__`); those are
  modelled from the spec and marked `Modelled from the spec:` below.
-/

namespace Counterpoint

/-- A Python loop or comprehension whose body can raise: the elements are
produced left to right and the first exception aborts the whole call. -/
def optionMapM {α β : Type} (f : α → Option β) : List α → Option (List β)
  | [] => some []
  | x :: xs => do
    let y ← f x
    let ys ← optionMapM f xs
    pure (y :: ys)

/-- `optionMapM` inverts: every element of a successful result comes from an
input element on which the body succeeded. -/
theorem optionMapM_mem {α β : Type} (f : α → Option β) :
    ∀ {xs : List α} {ys : List β}, optionMapM f xs = some ys →
      ∀ y ∈ ys, ∃ x ∈ xs, f x = some y := by
  intro xs
  induction xs with
  | nil =>
    intro ys h y hy
    simp only [optionMapM] at h
    cases h
    simp at hy
  | cons x xs ih =>
    intro ys h y hy
    simp only [optionMapM, Option.bind_eq_bind] at h
    cases hfx : f x with
    | none => rw [hfx] at h; simp at h
    | some b =>
      rw [hfx] at h
      simp only [Option.some_bind] at h
      cases hrest : optionMapM f xs with
      | none => rw [hrest] at h; simp at h
      | some bs =>
        rw [hrest] at h
        simp only [Option.some_bind] at h
        cases h
        rcases List.mem_cons.mp hy with hy | hy
        · exact ⟨x, List.mem_cons_self x xs, by rw [hfx, hy]⟩
        · obtain ⟨x', hx', hfx'⟩ := ih hrest y hy
          exact ⟨x', List.mem_cons_of_mem x hx', hfx'⟩

/-- `model.NoteName.__post_init__`: the fifths coordinate of a note name must
lie in [-15, 19], otherwise `ValueError`. -/
def mkNoteName (v : ℤ) : Option ℤ :=
  if -15 ≤ v ∧ v ≤ 19 then some v else none

/-- `model.Pitch`: a pitch is the number of upward octave shifts and upward
perfect-fifth shifts from C4 (`octave : Octave`, `note_name : NoteName`).
All `Pitch` values produced by the embedded code go through `pitchAdd` or are
in-range constants, so the `NoteName` bound is enforced at those points. -/
structure Pitch where
  octave : ℤ
  noteName : ℤ
deriving DecidableEq, Repr

/-- Modelled from the spec: `Pitch.num` is called by the source
(`util.is_in_part_range`, `util.sorted_pitches`, `validator`,
`search_common`, ...) but its definition is not under src/. The spec orders
pitches "by sounding height (enharmonic spellings distinguished in identity
but not in height)": an octave shift is 12 semitones and a perfect-fifth
shift is 7, so the semitone height relative to C4 is `12*octave + 7*fifths`.
-/
def Pitch.num (p : Pitch) : ℤ := 12 * p.octave + 7 * p.noteName

/-- `model.Interval`: the difference of two pitches, as octave and fifth
shift counts. -/
structure Interval where
  octave : ℤ
  fifth : ℤ
deriving DecidableEq, Repr

/-- `model.Interval.of(base, target)`, also `Pitch.__sub__`
(`target - base`). -/
def Interval.of (base target : Pitch) : Interval :=
  ⟨target.octave - base.octave, target.noteName - base.noteName⟩

/-- `model.Interval.step`: the 0-indexed diatonic step count
`4*fifth + 7*octave` (`model.IntervalStep` is a plain ordered wrapper around
this integer). -/
def Interval.step (i : Interval) : ℤ := 4 * i.fifth + 7 * i.octave

/-- `model.Interval.alter`: quality of the interval (0 perfect, 1 major,
-1 minor, ±2 augmented/diminished, ...). Python `//` on a nonnegative
numerator and positive divisor agrees with `Int` division. -/
def Interval.alter (i : Interval) : ℤ :=
  let absFifth := |i.fifth|
  let stepSgn : ℤ := if i.step < 0 then -1 else 1
  let fifthSgn : ℤ := if i.fifth < 0 then -1 else 1
  let sgn := stepSgn * fifthSgn
  if absFifth ≤ 1 then 0
  else if absFifth ≤ 5 then sgn * 1
  else sgn * (2 + (absFifth - 6) / 7)

/-- `model.Interval.from_step_alter`: reconstruct an interval from its step
and quality; `ValueError` (and the unreachable divisibility `RuntimeError`)
are modelled as `none`. Python `%` and `//` with the positive divisor 7
agree with `Int.emod`/`Int.ediv`. -/
def Interval.fromStepAlter (s a : ℤ) : Option Interval :=
  let fClass := (2 * s) % 7
  let stepSgn : ℤ := if s < 0 then -1 else 1
  let fBaseSharp := (fClass - 6) % 7 + 6
  let fBaseFlat := (fClass - 2) % 7 - 12
  let fOpt : Option ℤ :=
    if a = 0 then
      if fClass = 0 then some 0
      else if fClass = 1 then some 1
      else if fClass = 6 then some (-1)
      else none
    else if a = 1 then
      if fClass = 2 ∨ fClass = 3 ∨ fClass = 4 ∨ fClass = 5 then
        some (if stepSgn = 1 then fClass else fClass - 7)
      else none
    else if a = -1 then
      if fClass = 2 ∨ fClass = 3 ∨ fClass = 4 ∨ fClass = 5 then
        some (if stepSgn = 1 then fClass - 7 else fClass)
      else none
    else if a ≥ 2 then
      let k := a - 2
      some (if stepSgn = 1 then fBaseSharp + 7 * k else fBaseFlat - 7 * k)
    else
      let k := -a - 2
      some (if stepSgn = 1 then fBaseFlat - 7 * k else fBaseSharp + 7 * k)
  match fOpt with
  | none => none
  | some f =>
    let residual := s - 4 * f
    if residual % 7 ≠ 0 then none
    else some ⟨residual / 7, f⟩

/-- `model.Interval.normalize`: compound intervals become simple, downward
intervals become the upward interval of the same quality. -/
def Interval.normalize (i : Interval) : Option Interval :=
  let step := i.step
  let alter := i.alter
  let step' : ℤ :=
    if step = 0 then step
    else if step > 0 then step % 7
    else (-step) % 7
  Interval.fromStepAlter step' alter

/-- Modelled from the spec: `Interval.abs` is called by the source
(`search_common.is_valid_melodic_interval`,
`validator.validate_melody_interval_7_9`) but its definition is not under
src/. It turns a downward interval into the corresponding upward interval of
the same quality (the permitted-melodic-interval set and the 7th/9th rule are
direction-independent in the spec), leaving upward intervals unchanged. -/
def Interval.absI (i : Interval) : Interval :=
  if i.step < 0 ∨ (i.step = 0 ∧ i.fifth < 0) then ⟨-i.octave, -i.fifth⟩ else i

/-- `model.Pitch.__add__(Interval)`: the new `NoteName` is bound-checked at
construction. -/
def pitchAdd (p : Pitch) (i : Interval) : Option Pitch := do
  let nn ← mkNoteName (p.noteName + i.fifth)
  pure ⟨p.octave + i.octave, nn⟩

/-! Interval constants. The source builds them with `Interval.parse`
("P1", "m2", ...), which resolves to `Interval.from_step_alter` on the
0-indexed step and the quality; the lemmas following the constants check
each value against `Interval.fromStepAlter`. -/

def iP1 : Interval := ⟨0, 0⟩
def im2 : Interval := ⟨3, -5⟩
def iM2 : Interval := ⟨-1, 2⟩
def im3 : Interval := ⟨2, -3⟩
def iM3 : Interval := ⟨-2, 4⟩
def iP4 : Interval := ⟨1, -1⟩
def iP5 : Interval := ⟨0, 1⟩
def idim5 : Interval := ⟨4, -6⟩
def im6 : Interval := ⟨3, -4⟩
def iP8 : Interval := ⟨1, 0⟩
def iP12 : Interval := ⟨1, 1⟩
def iP15 : Interval := ⟨2, 0⟩

theorem iP1_parse : Interval.fromStepAlter 0 0 = some iP1 := by decide
theorem im2_parse : Interval.fromStepAlter 1 (-1) = some im2 := by decide
theorem iM2_parse : Interval.fromStepAlter 1 1 = some iM2 := by decide
theorem im3_parse : Interval.fromStepAlter 2 (-1) = some im3 := by decide
theorem iM3_parse : Interval.fromStepAlter 2 1 = some iM3 := by decide
theorem iP4_parse : Interval.fromStepAlter 3 0 = some iP4 := by decide
theorem iP5_parse : Interval.fromStepAlter 4 0 = some iP5 := by decide
theorem idim5_parse : Interval.fromStepAlter 4 (-2) = some idim5 := by decide
theorem im6_parse : Interval.fromStepAlter 5 (-1) = some im6 := by decide
theorem iP8_parse : Interval.fromStepAlter 7 0 = some iP8 := by decide
theorem iP12_parse : Interval.fromStepAlter 11 0 = some iP12 := by decide
theorem iP15_parse : Interval.fromStepAlter 14 0 = some iP15 := by decide

/-! ## Key, mode and degrees (`model.Mode`, `model.Key`, `model.Degree`) -/

inductive Mode where
  | major
  | minor
deriving DecidableEq, Repr

/-- `model.Mode.offset`. -/
def Mode.offset : Mode → ℤ
  | .major => 0
  | .minor => -3

/-- `model.Key`: tonic note name (as its fifths coordinate) and mode. -/
structure Key where
  tonic : ℤ
  mode : Mode
deriving DecidableEq, Repr

/-- `counterpoint.model.KEY`: C major (`NoteName.parse("C") = 0`). -/
def KEY : Key := ⟨0, .major⟩

/-- Python `round(x/7)` for an integer `x`: banker's rounding, but `x/7` is
never exactly half-way (that would need `2*x ≡ 0 (mod 7)` with `x/7` a
half-integer, impossible for denominator 7), so it is plain
nearest-integer rounding, `⌊(2*x + 7) / 14⌋`. -/
def roundDiv7 (x : ℤ) : ℤ := (2 * x + 7) / 14

/-- `model.Degree.from_note_name_key`: the (step, alter) degree of a note
name in a key; `DegreeAlter.__post_init__` bounds alter to [-1, 2]
(`ValueError` otherwise). `DegreeStep`'s [0, 6] bound holds by construction
(`% 7`). -/
def degreeFromNoteNameKey (noteName : ℤ) (key : Key) : Option (ℤ × ℤ) :=
  let r := noteName - key.tonic
  let m := key.mode.offset
  let alter := roundDiv7 (r - m - 2)
  if -1 ≤ alter ∧ alter ≤ 2 then
    some ((4 * (r - 7 * alter)) % 7, alter)
  else none

/-- `model.Degree.note_name(key)`: recover the note name of a degree in a
key; the `ValueError` for an unplaceable `r_0` (documented unreachable) and
the `NoteName` bound are modelled as `none`. -/
def degreeNoteName (step alter : ℤ) (key : Key) : Option ℤ :=
  let m := key.mode.offset
  let r0c := (2 * step) % 7
  let r0Opt : Option ℤ :=
    if -1 + m ≤ r0c ∧ r0c ≤ 5 + m then some r0c
    else if -1 + m ≤ r0c - 7 ∧ r0c - 7 ≤ 5 + m then some (r0c - 7)
    else if -1 + m ≤ r0c + 7 ∧ r0c + 7 ≤ 5 + m then some (r0c + 7)
    else none
  match r0Opt with
  | none => none
  | some r0 => mkNoteName (key.tonic + (r0 + 7 * alter))

/-- `util.add_interval_step_in_key`: move a pitch upward by a diatonic step
count within a key, preserving the chromatic alteration. The divisibility
`RuntimeError` (documented unreachable) and the `NoteName`/`DegreeAlter`
bounds are modelled as `none`. -/
def addIntervalStepInKey (key : Key) (pitch : Pitch) (intervalStep : ℤ) :
    Option Pitch := do
  let sd ← degreeFromNoteNameKey pitch.noteName key
  let targetStep := (sd.1 + intervalStep) % 7
  let targetNoteName ← degreeNoteName targetStep sd.2 key
  let fifthDiff := targetNoteName - pitch.noteName
  let numerator := intervalStep - 4 * fifthDiff
  if numerator % 7 ≠ 0 then none
  else pitchAdd pitch ⟨numerator / 7, fifthDiff⟩

/-! ## Parts and ranges (`model.PartId`, `util.part_range`) -/

inductive PartId where
  | soprano
  | alto
  | tenor
  | bass
deriving DecidableEq, Repr

/-- `util.part_range`. The pitch pairs are `Pitch.parse` of
("C4","A5"), ("F3","D5"), ("C3","A4"), ("F2","D4") respectively. -/
def part_range : PartId → Pitch × Pitch
  | .soprano => (⟨0, 0⟩, ⟨0, 3⟩)
  | .alto => (⟨0, -1⟩, ⟨0, 2⟩)
  | .tenor => (⟨-1, 0⟩, ⟨-1, 3⟩)
  | .bass => (⟨-1, -1⟩, ⟨-1, 2⟩)

/-- `util.is_in_part_range`. -/
def is_in_part_range (pitch : Pitch) (partId : PartId) : Bool :=
  let r := part_range partId
  decide (r.1.num ≤ pitch.num ∧ pitch.num ≤ r.2.num)

/-- `util.sliding`: all windows of `windowSize` consecutive elements
(empty when the list is shorter than the window). -/
def sliding {α : Type} (l : List α) (windowSize : ℕ) : List (List α) :=
  (List.range (l.length + 1 - windowSize)).map fun i => ((l.drop i).take windowSize)

/-! ## `util.scale_pitches` -/

/-- Inner loop of one octave of `util.scale_pitches`: skip pitches below the
range, stop the whole scan at the first pitch above the range (`break` out
of the octave loop through the `for`-`else`), collect the rest. Returns the
collected pitches and whether the scan stopped. -/
def scanOctave (lo hi : Pitch) : List Pitch → List Pitch × Bool
  | [] => ([], false)
  | p :: rest =>
    if p.num < lo.num then scanOctave lo hi rest
    else if hi.num < p.num then ([], true)
    else
      let r := scanOctave lo hi rest
      (p :: r.1, r.2)

/-- Octave loop of `util.scale_pitches`. The source iterates
`itertools.count()` until the octave whose scan hits a pitch above the
range; the iteration count is bounded here by a fuel argument, which the
call below instantiates large enough for the fixed soprano range (checked by
`AVAILABLE_PITCHES_LIST_spec`). -/
def scaleScan (base : List Pitch) (lo hi : Pitch) : ℕ → ℤ → List Pitch
  | 0, _ => []
  | n + 1, o =>
    let shifted := base.map fun p => (⟨p.octave + o, p.noteName⟩ : Pitch)
    let r := scanOctave lo hi shifted
    if r.2 then r.1 else r.1 ++ scaleScan base lo hi n (o + 1)

/-- The C-major one-octave scale used by `util.scale_pitches`
(`Pitch.parse` of C4 D4 E4 F4 G4 A4 B4). -/
def majorScaleBase : List Pitch :=
  [⟨0, 0⟩, ⟨-1, 2⟩, ⟨-2, 4⟩, ⟨1, -1⟩, ⟨0, 1⟩, ⟨-1, 3⟩, ⟨-2, 5⟩]

/-- The harmonic-minor one-octave scale of `util.scale_pitches`
(C4 D4 Eb4 F4 G4 Ab4 B4). -/
def minorScaleBase : List Pitch :=
  [⟨0, 0⟩, ⟨-1, 2⟩, ⟨2, -3⟩, ⟨1, -1⟩, ⟨0, 1⟩, ⟨3, -4⟩, ⟨-2, 5⟩]

/-- The full-minor one-octave scale of `util.scale_pitches` with
`include_all_minor_scale` (C4 D4 Eb4 F4 G4 Ab4 A4 Bb4 B4). -/
def minorScaleBaseAll : List Pitch :=
  [⟨0, 0⟩, ⟨-1, 2⟩, ⟨2, -3⟩, ⟨1, -1⟩, ⟨0, 1⟩, ⟨3, -4⟩, ⟨-1, 3⟩, ⟨2, -2⟩, ⟨-2, 5⟩]

/-- `util.scale_pitches`: the scale pitches of a key inside a closed pitch
range, ascending. The base scale is shifted to the greatest tonic at or
below the range minimum, then octave-scanned upward. Shifting the base
scale constructs `NoteName(key_p.note_name + p.note_name)`, whose bound
check may raise. -/
def scale_pitches (key : Key) (range : Pitch × Pitch)
    (includeAllMinorScale : Bool) : Option (List Pitch) := do
  let lo := range.1
  let hi := range.2
  let keyPOctave : ℤ := ((lo.noteName - key.tonic) * 7 + lo.octave * 12) / 12
  let baseList : List Pitch :=
    match key.mode with
    | .major => majorScaleBase
    | .minor => if includeAllMinorScale then minorScaleBaseAll else minorScaleBase
  let base ← optionMapM (fun p => do
    let nn ← mkNoteName (key.tonic + p.noteName)
    pure (⟨keyPOctave + p.octave, nn⟩ : Pitch)) baseList
  pure (scaleScan base lo hi 16 0)

/-! ## Counterpoint data model (`counterpoint/model.py`, `counterpoint/util.py`) -/

/-- `counterpoint.model.RythmnType` (source spelling kept). -/
inductive RythmnType where
  | quaterNote
  | halfNote
  | wholeNote
deriving DecidableEq, Repr

/-- `RythmnType.note_duration`, in quarter-note units. -/
def RythmnType.note_duration : RythmnType → ℤ
  | .quaterNote => 1
  | .halfNote => 2
  | .wholeNote => 4

/-- `counterpoint.model.ToneType`. -/
inductive ToneType where
  | harmonicTone
  | passingTone
  | neighborTone
deriving DecidableEq, Repr

/-- `model.Note`: a pitch or rest (`none`) with a duration. The
`is_tied_start` flag (default `False`) is never set by the counterpoint core
and is omitted. -/
structure Note where
  pitch : Option Pitch
  duration : ℤ
deriving DecidableEq, Repr

/-- `counterpoint.model.AnnotatedNote`. -/
structure AnnotatedNote where
  note : Note
  tone_type : ToneType
deriving DecidableEq, Repr

/-- `counterpoint.model.AnnotatedMeasure`. -/
structure AnnotatedMeasure where
  annotated_notes : List AnnotatedNote
deriving DecidableEq, Repr

/-- `counterpoint.util.make_annotated_note`. -/
def make_annotated_note (pitch : Option Pitch) (toneType : ToneType)
    (duration : ℤ) : AnnotatedNote :=
  ⟨⟨pitch, duration⟩, toneType⟩

/-- `counterpoint.model.MEASURE_TOTAL_DURATION` (4 quarter notes). -/
def MEASURE_TOTAL_DURATION : ℤ := 4

/-- Helper for `AnnotatedMeasure.offset_notes`: the (onset offset, note)
pairs of a note list starting at a given offset, in source order. The
source accumulates them into a `dict`; with the positive durations produced
by the generators the onsets are strictly increasing, so insertion order and
key set coincide with this list. -/
def offsetNotesGo : List AnnotatedNote → ℤ → List (ℤ × AnnotatedNote)
  | [], _ => []
  | an :: rest, cur => (cur, an) :: offsetNotesGo rest (cur + an.note.duration)

/-- `AnnotatedMeasure.offset_notes`. -/
def AnnotatedMeasure.offset_notes (m : AnnotatedMeasure) :
    List (ℤ × AnnotatedNote) :=
  offsetNotesGo m.annotated_notes 0

/-- Helper for `AnnotatedMeasure.offset_note_at`: outer `none` is the
out-of-bounds `ValueError`, inner `none` is an explicit rest at the queried
offset. -/
def offsetNoteAtGo : List AnnotatedNote → ℤ → ℤ →
    Option (Option (ℤ × AnnotatedNote))
  | [], _, _ => none
  | an :: rest, cur, o =>
    let noteEnd := cur + an.note.duration
    if cur ≤ o ∧ o < noteEnd then
      some (match an.note.pitch with
            | none => none
            | some _ => some (cur, an))
    else offsetNoteAtGo rest noteEnd o

/-- `AnnotatedMeasure.offset_note_at`. -/
def AnnotatedMeasure.offset_note_at (m : AnnotatedMeasure) (offset : ℤ) :
    Option (Option (ℤ × AnnotatedNote)) :=
  offsetNoteAtGo m.annotated_notes 0 offset

/-- Total duration of a note list (`sum` of the durations). -/
def total_duration_of (notes : List AnnotatedNote) : ℤ :=
  (notes.map fun an => an.note.duration).sum

/-! ## Local measure context (`counterpoint/context.py`;
`counterpoint/local_measure_context.py` contains the identical class) -/

structure LocalMeasureContext where
  previous_measure : Option AnnotatedMeasure
  previous_cf : Option Pitch
  current_cf : Pitch
  next_measure_cf : Option Pitch
  rythmn_type : RythmnType
  is_first_measure : Bool
  is_last_measure : Bool
  is_next_last_measure : Bool
  note_buffer : List AnnotatedNote
  is_root_chord : Option Bool
  next_measure_mark : Option Pitch
deriving DecidableEq, Repr

/-- `LocalMeasureContext.total_note_buffer_duration`. -/
def LocalMeasureContext.total_note_buffer_duration
    (l : LocalMeasureContext) : ℤ :=
  total_duration_of l.note_buffer

/-- `LocalMeasureContext.is_buffer_fulfilled`. -/
def LocalMeasureContext.is_buffer_fulfilled (l : LocalMeasureContext) : Bool :=
  decide (l.total_note_buffer_duration = MEASURE_TOTAL_DURATION)

/-- `LocalMeasureContext.__post_init__`: every construction of the dataclass
(including via `dataclasses.replace`) re-runs these `assert`s; a failure is
an exception (`none`). -/
def mkLocalMeasureContext (pm : Option AnnotatedMeasure) (pcf : Option Pitch)
    (ccf : Pitch) (ncf : Option Pitch) (rt : RythmnType)
    (fst lst nlst : Bool) (buf : List AnnotatedNote) (rc : Option Bool)
    (mark : Option Pitch) : Option LocalMeasureContext :=
  if fst = pcf.isNone ∧ pcf.isNone = pm.isNone ∧ lst = ncf.isNone ∧
      (nlst = true → ncf.isSome = true) ∧
      total_duration_of buf ≤ MEASURE_TOTAL_DURATION then
    some ⟨pm, pcf, ccf, ncf, rt, fst, lst, nlst, buf, rc, mark⟩
  else none

/-- `dataclasses.replace(local_ctx, note_buffer=…, next_measure_mark=…,
is_root_chord=…)` as used by the generators (pass the old `is_root_chord`
for the replaces that leave it unchanged). -/
def LocalMeasureContext.replaced (l : LocalMeasureContext)
    (buf : List AnnotatedNote) (mark : Option Pitch) (rc : Option Bool) :
    Option LocalMeasureContext :=
  mkLocalMeasureContext l.previous_measure l.previous_cf l.current_cf
    l.next_measure_cf l.rythmn_type l.is_first_measure l.is_last_measure
    l.is_next_last_measure buf rc mark

/-- `LocalMeasureContext.current_offset`: the buffer total as an offset when
it is one of 0..3 (`Offset.of(0)`..`Offset.of(3)`), `ValueError` otherwise.
-/
def LocalMeasureContext.current_offset (l : LocalMeasureContext) : Option ℤ :=
  let offset := l.total_note_buffer_duration
  if offset = 0 ∨ offset = 1 ∨ offset = 2 ∨ offset = 3 then some offset
  else none

/-- `LocalMeasureContext.previous_latest_added_pitch`: the last pitch of the
buffer, else the last pitch of the previous measure; `ValueError` (modelled
as `none`) if the buffer is non-empty but ends with a rest, if there is no
previous measure, or if the previous measure ends with a rest. -/
def LocalMeasureContext.previous_latest_added_pitch
    (l : LocalMeasureContext) : Option Pitch :=
  match l.note_buffer.getLast? with
  | some an => an.note.pitch
  | none =>
    match l.previous_measure with
    | some pm => pm.annotated_notes.getLast?.bind fun an => an.note.pitch
    | none => none

/-! ## Global context (`counterpoint/context.py`;
`counterpoint/global_context.py` contains the identical class) -/

structure GlobalContext where
  cantus_firmus : List Pitch
  rythmn_type : RythmnType
  completed_measures : List AnnotatedMeasure
  next_measure_mark : Option Pitch
deriving DecidableEq, Repr

/-- `GlobalContext.__post_init__`: the cantus firmus is non-empty and the
completed measures never outnumber it. -/
def mkGlobalContext (cf : List Pitch) (rt : RythmnType)
    (ms : List AnnotatedMeasure) (mark : Option Pitch) :
    Option GlobalContext :=
  if cf ≠ [] ∧ ms.length ≤ cf.length then some ⟨cf, rt, ms, mark⟩ else none

/-- `GlobalContext.new_global_context`. -/
def new_global_context (cf : List Pitch) (rt : RythmnType) :
    Option GlobalContext :=
  mkGlobalContext cf rt [] none

/-- `GlobalContext.is_measures_fulfilled`. -/
def GlobalContext.is_measures_fulfilled (g : GlobalContext) : Bool :=
  decide (g.completed_measures.length = g.cantus_firmus.length)

/-- `GlobalContext.local_ctx_appended`: append the finished buffer as a
measure and carry the mark; `assert local_ctx.is_buffer_fulfilled()` first,
then the dataclass-replace re-runs `__post_init__`. -/
def GlobalContext.local_ctx_appended (g : GlobalContext)
    (l : LocalMeasureContext) : Option GlobalContext :=
  if l.is_buffer_fulfilled then
    mkGlobalContext g.cantus_firmus g.rythmn_type
      (g.completed_measures ++ [⟨l.note_buffer⟩]) l.next_measure_mark
  else none

/-- `GlobalContext.new_local_measure_countext` (source spelling kept): the
fresh context for the next measure; list indexing into the cantus firmus and
completed measures is fallible (`IndexError` as `none`), and the result
re-runs `LocalMeasureContext.__post_init__`. -/
def GlobalContext.new_local_measure_countext (g : GlobalContext) :
    Option LocalMeasureContext := do
  let n := g.completed_measures.length
  let fst : Bool := decide (n = 0)
  let lst : Bool := decide ((n : ℤ) = (g.cantus_firmus.length : ℤ) - 1)
  let nlst : Bool := decide ((n : ℤ) = (g.cantus_firmus.length : ℤ) - 2)
  let pm : Option AnnotatedMeasure ←
    if n = 0 then pure none
    else (g.completed_measures.get? (n - 1)).map some
  let pcf : Option Pitch ←
    if n = 0 then pure none
    else (g.cantus_firmus.get? (n - 1)).map some
  let ccf ← g.cantus_firmus.get? n
  let ncf : Option Pitch ←
    if lst then pure none
    else (g.cantus_firmus.get? (n + 1)).map some
  mkLocalMeasureContext pm pcf ccf ncf g.rythmn_type fst lst nlst [] none
    g.next_measure_mark

/-! ## Shared search helpers (`counterpoint/search_common.py`) -/

/-- `search_common.AVAILABLE_PITCHES_LIST =
scale_pitches(KEY, part_range(REALIZE_PART_ID))` with
`REALIZE_PART_ID = SOPRANO`: the C-major scale pitches from C4 to A5,
ascending (checked against `scale_pitches` below). The source also keeps
`AVAILABLE_PITCHES_SET = set(...)`; membership in the list is used for it. -/
def AVAILABLE_PITCHES_LIST : List Pitch :=
  [⟨0, 0⟩, ⟨-1, 2⟩, ⟨-2, 4⟩, ⟨1, -1⟩, ⟨0, 1⟩, ⟨-1, 3⟩, ⟨-2, 5⟩,
   ⟨1, 0⟩, ⟨0, 2⟩, ⟨-1, 4⟩, ⟨2, -1⟩, ⟨1, 1⟩, ⟨0, 3⟩]

theorem AVAILABLE_PITCHES_LIST_spec :
    scale_pitches KEY (part_range .soprano) false =
      some AVAILABLE_PITCHES_LIST := by decide

/-- The chord-constraint table of
`search_common.available_harmonic_pitches_with_chord`: permitted normalized
steps above the cantus firmus (0-indexed: unison 0, third 2, fifth 4,
sixth 5) and the chord commitment each choice implies, depending on the
already-committed `is_root_chord`. -/
def step_and_next_chord_dict (rc : Option Bool) : List (ℤ × Option Bool) :=
  match rc with
  | none => [(0, none), (2, none), (4, some true), (5, some false)]
  | some true => [(0, some true), (2, some true), (4, some true)]
  | some false => [(0, some false), (2, some false), (5, some false)]

/-- Loop of `available_harmonic_pitches_with_chord`: for each pre-filtered
pitch, normalize its interval above the cantus firmus (`normalize` may
raise) and keep it when the step is a key of the table, paired with the
table's chord value. -/
def availableHarmonicGo (cf : Pitch) (dict : List (ℤ × Option Bool)) :
    List Pitch → Option (List (Pitch × Option Bool))
  | [] => some []
  | p :: rest => do
    let n ← (Interval.of cf p).normalize
    let rest' ← availableHarmonicGo cf dict rest
    match dict.lookup n.step with
    | some v => pure ((p, v) :: rest')
    | none => pure rest'

/-- `search_common.available_harmonic_pitches_with_chord`: consonant pitches
above the current cantus firmus (within two octaves, in the voice range)
compatible with the committed chord, each with the chord commitment it
implies. -/
def available_harmonic_pitches_with_chord (l : LocalMeasureContext) :
    Option (List (Pitch × Option Bool)) :=
  let cf := l.current_cf
  let dict := step_and_next_chord_dict l.is_root_chord
  let allAvailable := AVAILABLE_PITCHES_LIST.filter fun p =>
    decide (cf.num ≤ p.num ∧ (Interval.of cf p).step ≤ 14)
  availableHarmonicGo cf dict allAvailable

/-- `search_common.start_available_pitches`: the cantus firmus plus
P1/P5/P8/P12/P15, filtered to the voice range (`Pitch.__add__` may raise
first). The `local_ctx` parameter is unused, as in the source. -/
def start_available_pitches (_l : LocalMeasureContext) (cf : Pitch) :
    Option (List Pitch) := do
  let candidates ← optionMapM (fun i => pitchAdd cf i) [iP1, iP5, iP8, iP12, iP15]
  pure (candidates.filter fun p => decide (p ∈ AVAILABLE_PITCHES_LIST))

/-- `search_common.end_available_pitches`: the cantus firmus plus
P1/P8/P15, filtered to the voice range. -/
def end_available_pitches (_l : LocalMeasureContext) (cf : Pitch) :
    Option (List Pitch) := do
  let candidates ← optionMapM (fun i => pitchAdd cf i) [iP1, iP8, iP15]
  pure (candidates.filter fun p => decide (p ∈ AVAILABLE_PITCHES_LIST))

/-- Loop of `search_common.available_pitches`: the comprehension's `and`
chain short-circuits, so `normalize` is only evaluated for pitches passing
the range/two-octave tests. -/
def availablePitchesGo (cf : Pitch) : List Pitch → Option (List Pitch)
  | [] => some []
  | p :: rest =>
    if cf.num ≤ p.num ∧ (Interval.of cf p).step ≤ 14 then do
      let n ← (Interval.of cf p).normalize
      let rest' ← availablePitchesGo cf rest
      if n.step = 0 ∨ n.step = 2 ∨ n.step = 4 ∨ n.step = 5 then
        pure (p :: rest')
      else pure rest'
    else availablePitchesGo cf rest

/-- `search_common.available_pitches`: consonant pitches (unison, 3rd, 5th,
6th above, compound included) above the given cantus firmus, within two
octaves and the voice range. -/
def available_pitches (_l : LocalMeasureContext) (cf : Pitch) :
    Option (List Pitch) :=
  availablePitchesGo cf AVAILABLE_PITCHES_LIST

/-- `search_common.VALID_MELODIC_INTERVAL_LIST`: m2 M2 m3 M3 P4 P5 m6 P8
(the source comments: major sixths and sevenths are not allowed). -/
def VALID_MELODIC_INTERVAL_LIST : List Interval :=
  [im2, iM2, im3, iM3, iP4, iP5, im6, iP8]

/-- `search_common.is_valid_melodic_interval`: membership of the absolute
interval in the permitted set; a unison is not in the set, so melodic
repetition is rejected. The `local_ctx` parameter is unused, as in the
source. -/
def is_valid_melodic_interval (_l : LocalMeasureContext) (i : Interval) :
    Bool :=
  decide (i.absI ∈ VALID_MELODIC_INTERVAL_LIST)

/-! ## Move generator: start note (`counterpoint/search_start_note.py`) -/

/-- `search_start_note.next_ctxs`: one candidate per available start pitch;
the buffer gets a leading one-unit rest before the pitch unless the rhythm
is whole notes; `is_root_chord` is forced true and the mark cleared. -/
def searchStartNoteNextCtxs (l : LocalMeasureContext) :
    Option (List LocalMeasureContext) := do
  let possible ← start_available_pitches l l.current_cf
  optionMapM (fun pitch =>
    let duration := l.rythmn_type.note_duration
    let buf : List AnnotatedNote :=
      match l.rythmn_type with
      | .wholeNote => [make_annotated_note (some pitch) .harmonicTone duration]
      | _ =>
        [make_annotated_note none .harmonicTone duration,
         make_annotated_note (some pitch) .harmonicTone duration]
    l.replaced buf none (some true)) possible

/-! ## Move generator: end note (`counterpoint/search_end_note.py`) -/

/-- `search_end_note.next_ctxs`: with a pending mark the only candidate is
the marked pitch; otherwise the final-measure pitches (P1/P8/P15 above the
cantus firmus) whose melodic interval from the previous pitch is permitted.
Every candidate fills the measure as a single whole note tagged Harmonic,
with `is_root_chord` forced true. -/
def searchEndNoteNextCtxs (l : LocalMeasureContext) :
    Option (List LocalMeasureContext) := do
  let nextPitches : List Pitch ←
    match l.next_measure_mark with
    | some mark => pure [mark]
    | none => do
      let ps ← end_available_pitches l l.current_cf
      let prev ← l.previous_latest_added_pitch
      pure (ps.filter fun p => is_valid_melodic_interval l (Interval.of prev p))
  optionMapM (fun p =>
    l.replaced [make_annotated_note (some p) .harmonicTone 4] none (some true))
    nextPitches

/-! ## Move generator: harmonic tone (`counterpoint/search_harmonic_note.py`) -/

/-- `search_harmonic_note.next_ctxs`: with a pending mark, the single
candidate is the marked pitch and the chord commitment is derived from the
normalized step of `current_cf - mark` (5th → root, 6th → inversion,
unison/3rd → undetermined, otherwise `ValueError`); otherwise the
chord-compatible consonances reachable by a permitted melodic interval.
One harmonic note of the rhythm's duration is appended. -/
def searchHarmonicNoteNextCtxs (l : LocalMeasureContext) :
    Option (List LocalMeasureContext) := do
  let pcList : List (Pitch × Option Bool) ←
    match l.next_measure_mark with
    | some mark => do
      let n ← (Interval.of mark l.current_cf).normalize
      let rcOpt : Option (Option Bool) :=
        if n.step = 4 then some (some true)
        else if n.step = 5 then some (some false)
        else if n.step = 0 ∨ n.step = 2 then some none
        else none
      match rcOpt with
      | none => none
      | some rc => pure [(mark, rc)]
    | none => do
      let prev ← l.previous_latest_added_pitch
      let allCandidates ← available_harmonic_pitches_with_chord l
      pure (allCandidates.filter fun pc =>
        is_valid_melodic_interval l (Interval.of prev pc.1))
  optionMapM (fun pc =>
    l.replaced
      (l.note_buffer ++
        [make_annotated_note (some pc.1) .harmonicTone
          l.rythmn_type.note_duration])
      none pc.2) pcList

/-! ## Move generator: passing tone (`counterpoint/search_passing_tone.py`) -/

/-- `search_passing_tone.progression_pattern`: by current offset and rhythm,
the upward step targets (0-indexed, `IntervalStep.idx_1`) and whether the
target stays in the current measure; each pattern also yields its downward
mirror. Offsets outside the table raise `RuntimeError` for quarter- and
half-note rhythms; the `match` has no `WHOLE_NOTE` case, so that rhythm
falls through with the empty pattern list. `Offset.idx_1(n)` (not under
src/) is beat `n` 1-indexed, i.e. offset `n - 1`, matching the spec's
progression-pattern table. -/
def progression_pattern (currentOffset : ℤ) (rt : RythmnType) :
    Option (List (ℤ × Bool)) :=
  let patternsOpt : Option (List (ℤ × Bool)) :=
    match rt with
    | .quaterNote =>
      if currentOffset = 1 then some [(2, true), (3, true), (4, false)]
      else if currentOffset = 2 then some [(2, true), (3, false)]
      else if currentOffset = 3 then some [(2, false)]
      else none
    | .halfNote =>
      if currentOffset = 2 then some [(2, false)] else none
    | .wholeNote => some []
  patternsOpt.map fun ps => ps ++ ps.map fun p => (-p.1, p.2)

/-- `search_passing_tone.conjunct_pitches`: the stepwise run from `pitch`
(exclusive) to the pitch `intervalStep` away (inclusive), diatonic in the
key. -/
def conjunct_pitches (key : Key) (pitch : Pitch) (intervalStep : ℤ) :
    Option (List Pitch) :=
  let steps : List ℤ :=
    if intervalStep = 0 then []
    else if intervalStep > 0 then
      (List.range intervalStep.toNat).map fun v => (v : ℤ) + 1
    else
      (List.range (-intervalStep).toNat).map fun v => -((v : ℤ) + 1)
  optionMapM (fun s => addIntervalStepInKey key pitch s) steps

/-- One pattern of `search_passing_tone.next_ctxs`: candidates for a single
(step, stays-in-measure) pattern. -/
def passingPatternCtxs (l : LocalMeasureContext) (nextCf : Pitch)
    (step : ℤ) (inCurrent : Bool) : Option (List LocalMeasureContext) := do
  let prev ← l.previous_latest_added_pitch
  let targetPitch ← addIntervalStepInKey KEY prev step
  if inCurrent then do
    let avail ← available_harmonic_pitches_with_chord l
    let matching := avail.filter fun pc => decide (targetPitch = pc.1)
    optionMapM (fun pc => do
      let pitches ← conjunct_pitches KEY prev step
      let lastP ← pitches.getLast?
      let initNotes := pitches.dropLast.map fun p =>
        make_annotated_note (some p) .passingTone l.rythmn_type.note_duration
      let lastNote :=
        make_annotated_note (some lastP) .harmonicTone
          l.rythmn_type.note_duration
      l.replaced (l.note_buffer ++ initNotes ++ [lastNote]) none pc.2)
      matching
  else do
    let aPitches ←
      if l.is_next_last_measure then end_available_pitches l nextCf
      else available_pitches l nextCf
    let matching := aPitches.filter fun ap => decide (targetPitch = ap)
    optionMapM (fun _ => do
      let pitches ← conjunct_pitches KEY prev step
      let lastP ← pitches.getLast?
      let notesToAdd := pitches.dropLast.map fun p =>
        make_annotated_note (some p) .passingTone l.rythmn_type.note_duration
      l.replaced (l.note_buffer ++ notesToAdd) (some lastP) l.is_root_chord)
      matching

/-- Pattern loop of `search_passing_tone.next_ctxs`. -/
def passingPatternsGo (l : LocalMeasureContext) (nextCf : Pitch) :
    List (ℤ × Bool) → Option (List LocalMeasureContext)
  | [] => some []
  | p :: rest => do
    let ctxs ← passingPatternCtxs l nextCf p.1 p.2
    let restCtxs ← passingPatternsGo l nextCf rest
    pure (ctxs ++ restCtxs)

/-- `search_passing_tone.next_ctxs`: not applicable (empty result, no
exception) in the last measure, at offset 0, or with a pending mark;
otherwise runs each progression pattern, placing the run's passing tones
and either an in-measure harmonic target or a next-measure mark. -/
def searchPassingToneNextCtxs (l : LocalMeasureContext) :
    Option (List LocalMeasureContext) := do
  if l.is_last_measure then pure [] else do
  let off ← l.current_offset
  if off = 0 then pure []
  else
    match l.next_measure_mark with
    | some _ => pure []
    | none => do
      let nextCf ← l.next_measure_cf
      let patterns ← progression_pattern off l.rythmn_type
      passingPatternsGo l nextCf patterns

/-! ## Move generator: neighbor tone (`counterpoint/search_neighbor_tone.py`) -/

/-- Loop of `search_neighbor_tone._available_neighbor_note_pitches`: the
diatonic upper and lower seconds of the previous pitch that lie in the voice
range (`add_interval_step_in_key` may raise first). -/
def neighborPitchesGo (prev : Pitch) : List ℤ → Option (List Pitch)
  | [] => some []
  | s :: rest => do
    let np ← addIntervalStepInKey KEY prev s
    let rest' ← neighborPitchesGo prev rest
    pure (if np ∈ AVAILABLE_PITCHES_LIST then np :: rest' else rest')

/-- `search_neighbor_tone._available_neighbor_note_pitches`. -/
def available_neighbor_note_pitches (l : LocalMeasureContext) :
    Option (List Pitch) := do
  let prev ← l.previous_latest_added_pitch
  neighborPitchesGo prev [1, -1]

/-- `search_neighbor_tone._is_target_note_in_current_measure`: whether the
neighbor figure's return note stays in the current measure; offsets outside
the rhythm's table (and the whole-note rhythm) raise `RuntimeError`. -/
def is_target_note_in_current_measure (l : LocalMeasureContext) :
    Option Bool := do
  let off ← l.current_offset
  match l.rythmn_type with
  | .quaterNote =>
    if off = 1 ∨ off = 2 then pure true
    else if off = 3 then pure false
    else none
  | .halfNote => if off = 2 then pure false else none
  | .wholeNote => none

/-- `search_neighbor_tone.next_ctxs`: not applicable (empty result, no
exception) in the last measure, at offset 0, or with a pending mark. In
measure, each in-range neighbor is tried as [neighbor, return-to-previous];
crossing the barline, the previous pitch must be a legal harmonic tone of
the next measure and becomes the mark, with the neighbor appended alone. -/
def searchNeighborToneNextCtxs (l : LocalMeasureContext) :
    Option (List LocalMeasureContext) := do
  if l.is_last_measure then pure [] else do
  let off ← l.current_offset
  if off = 0 then pure []
  else
    match l.next_measure_mark with
    | some _ => pure []
    | none => do
      let nextCf ← l.next_measure_cf
      let inCurrent ← is_target_note_in_current_measure l
      if inCurrent then do
        let neighbors ← available_neighbor_note_pitches l
        optionMapM (fun np => do
          let prev ← l.previous_latest_added_pitch
          let duration := l.rythmn_type.note_duration
          l.replaced
            (l.note_buffer ++
              [make_annotated_note (some np) .neighborTone duration,
               make_annotated_note (some prev) .harmonicTone duration])
            none l.is_root_chord) neighbors
      else do
        let aPitches ←
          if l.is_next_last_measure then end_available_pitches l nextCf
          else available_pitches l nextCf
        let prev ← l.previous_latest_added_pitch
        if prev ∈ aPitches then do
          let neighbors ← available_neighbor_note_pitches l
          optionMapM (fun np =>
            l.replaced
              (l.note_buffer ++
                [make_annotated_note (some np) .neighborTone
                  l.rythmn_type.note_duration])
              (some prev) l.is_root_chord) neighbors
        else pure []

/-! ## Measure validator (`counterpoint/validator.py`) -/

/-- `validator.check_is_parallel_motion`: both melodies move (structural
pitch inequality) in the same height direction. -/
def check_is_parallel_motion (s1 s2 : Pitch × Pitch) : Bool :=
  if s1.1 = s1.2 ∨ s2.1 = s2.2 then false
  else decide ((s1.2.num > s1.1.num) = (s2.2.num > s2.1.num))

/-- `validator.check_is_contrary_motion`: both melodies move, in opposite
height directions. -/
def check_is_contrary_motion (s1 s2 : Pitch × Pitch) : Bool :=
  if s1.1 = s1.2 ∨ s2.1 = s2.2 then false
  else decide (¬((s1.2.num > s1.1.num) = (s2.2.num > s2.1.num)))

/-- `validator.check_is_parallel_violation`: parallel or contrary motion
into P1→P1, P5→P5, d5→P5 or P5→d5 (normalized outer intervals); oblique
motion and repetition are allowed. `normalize` may raise. -/
def check_is_parallel_violation (s1 s2 : Pitch × Pitch) : Option Bool :=
  if ¬(check_is_parallel_motion s1 s2 ∨ check_is_contrary_motion s1 s2) then
    some false
  else do
    let n1 ← (Interval.of s1.1 s2.1).normalize
    let n2 ← (Interval.of s1.2 s2.2).normalize
    if n1 = iP1 ∧ n2 = iP1 then pure true
    else if n1 = iP5 ∧ n2 = iP5 then pure true
    else if n1 = idim5 ∧ n2 = iP5 then pure true
    else if n1 = iP5 ∧ n2 = idim5 then pure true
    else pure false

/-- `validator.is_hidden_interval_violation`: parallel motion into a
normalized P1 or P5. -/
def is_hidden_interval_violation (s1 s2 : Pitch × Pitch) : Option Bool :=
  if ¬check_is_parallel_motion s1 s2 then some false
  else do
    let n2 ← (Interval.of s1.2 s2.2).normalize
    pure (decide (n2 = iP1 ∨ n2 = iP5))

/-- Inner loop of the indirect-parallel check of
`validator.validate_interval`: for a fixed later realized note, scan all
earlier realized notes; `some false` at the first forbidden pair,
`some true` if the scan finds none, `none` for the in-loop exceptions
(cantus-firmus lookup out of bounds or resting, both impossible for the
two-whole-note cantus measure actually passed). -/
def indirectInner (cfMeasure : AnnotatedMeasure) (rco : ℤ)
    (rca : AnnotatedNote) : List (ℤ × AnnotatedNote) → Option Bool
  | [] => some true
  | (rpo, rpa) :: rest =>
    if ¬(0 < rco - rpo ∧ rco - rpo ≤ 4) then indirectInner cfMeasure rco rca rest
    else
      match rca.note.pitch, rpa.note.pitch with
      | some rcp, some rpp => do
        let cfCur ← cfMeasure.offset_note_at rco
        let cfPrev ← cfMeasure.offset_note_at rpo
        match cfCur, cfPrev with
        | some cfCurPair, some cfPrevPair =>
          match cfCurPair.2.note.pitch, cfPrevPair.2.note.pitch with
          | some cfCp, some cfPp => do
            let isParallelViolation ←
              check_is_parallel_violation (cfPp, cfCp) (rpp, rcp)
            let hasFollowingNotesSameOffset := decide (cfCurPair.1 = rco)
            let isContraryMotion :=
              check_is_contrary_motion (cfPp, cfCp) (rpp, rcp)
            let nonHarmonicToneExists :=
              decide (rca.tone_type ≠ ToneType.harmonicTone ∨
                rpa.tone_type ≠ ToneType.harmonicTone)
            if isParallelViolation ∧
                ¬(¬hasFollowingNotesSameOffset ∧
                  (isContraryMotion ∨ nonHarmonicToneExists)) then
              some false
            else indirectInner cfMeasure rco rca rest
          | _, _ => none
        | _, _ => none
      | _, _ => indirectInner cfMeasure rco rca rest

/-- Outer loop of the indirect-parallel check: later notes are those of the
previous-plus-current concatenation at offset ≥ 4. -/
def indirectOuter (cfMeasure : AnnotatedMeasure)
    (allPairs : List (ℤ × AnnotatedNote)) :
    List (ℤ × AnnotatedNote) → Option Bool
  | [] => some true
  | (rco, rca) :: rest =>
    if rco < 4 then indirectOuter cfMeasure allPairs rest
    else do
      let r ← indirectInner cfMeasure rco rca allPairs
      if r then indirectOuter cfMeasure allPairs rest else some false

/-- `validator.validate_interval`: direct parallels/hidden intervals across
the barline, then the indirect-parallel scan over the previous measure
concatenated with the current buffer. First measures pass trivially; the
`assert`s on the previous measure/cantus and the `[-1]`/`[0]` indexings are
fallible. -/
def validate_interval (l : LocalMeasureContext) : Option Bool :=
  if l.is_first_measure then some true
  else
    match l.previous_measure, l.previous_cf with
    | some previousMeasure, some previousCf => do
      let currentCf := l.current_cf
      let currentMeasure : AnnotatedMeasure := ⟨l.note_buffer⟩
      let pmLast ← previousMeasure.annotated_notes.getLast?
      let cmFirst ← currentMeasure.annotated_notes.head?
      let directOk : Bool ←
        match pmLast.note.pitch, cmFirst.note.pitch with
        | some pLast, some cFirst => do
          let pv ← check_is_parallel_violation (previousCf, currentCf)
            (pLast, cFirst)
          if pv then pure false
          else do
            let hv ← is_hidden_interval_violation (previousCf, currentCf)
              (pLast, cFirst)
            if hv then pure false else pure true
        | _, _ => pure true
      if ¬directOk then some false
      else
        let cfMeasure : AnnotatedMeasure :=
          ⟨[make_annotated_note (some previousCf) .harmonicTone 4,
            make_annotated_note (some currentCf) .harmonicTone 4]⟩
        let realizeMeasure : AnnotatedMeasure :=
          ⟨previousMeasure.annotated_notes ++ currentMeasure.annotated_notes⟩
        let pairs := realizeMeasure.offset_notes
        indirectOuter cfMeasure pairs pairs
    | _, _ => none

/-- `validator.extended_note_buffer`: the last two notes of the previous
measure (the source slices `[-2:]` regardless of its `num` parameter)
prepended to the buffer. -/
def extended_note_buffer (l : LocalMeasureContext) (_num : ℕ) :
    List AnnotatedNote :=
  (match l.previous_measure with
   | some pm => pm.annotated_notes.drop (pm.annotated_notes.length - 2)
   | none => []) ++ l.note_buffer

/-- The forbidden step patterns of `validator.validate_melody_arpeggiio`
(0-indexed steps of the 2nd and 3rd window note relative to the first):
1-3-5 outlines in the orderings {3,5}, {3,6}, {4,6} and their downward
mirrors. -/
def arpeggiio_steps_list : List (List ℤ) :=
  [[2, 4], [-2, -4], [2, 5], [-2, -5], [3, 5], [-3, -5]]

/-- `validator.validate_melody_arpeggiio`: no 3-note window (previous
measure's last two notes included) outlines a root-position triad. -/
def validate_melody_arpeggiio (l : LocalMeasureContext) : Bool :=
  let pitches := (extended_note_buffer l 2).filterMap fun an => an.note.pitch
  (sliding pitches 3).all fun ps =>
    match ps with
    | [base, p1, p2] =>
      decide ([(Interval.of base p1).step, (Interval.of base p2).step] ∉
        arpeggiio_steps_list)
    | _ => true

/-- The forbidden step patterns of
`validator.validate_melody_arpeggiio_extra`: third-less outlines {5,8} and
{4,8} (0-indexed {4,7} and {3,7}) with mirrors. -/
def arpeggiio_extra_steps_list : List (List ℤ) :=
  [[4, 7], [-4, -7], [3, 7], [-3, -7]]

/-- `validator.validate_melody_arpeggiio_extra`. -/
def validate_melody_arpeggiio_extra (l : LocalMeasureContext) : Bool :=
  let pitches := (extended_note_buffer l 2).filterMap fun an => an.note.pitch
  (sliding pitches 3).all fun ps =>
    match ps with
    | [base, p1, p2] =>
      decide ([(Interval.of base p1).step, (Interval.of base p2).step] ∉
        arpeggiio_extra_steps_list)
    | _ => true

/-- `validator.validate_melody_interval_7_9`: a 3-note window whose outer
absolute step is a 7th or beyond a 9th must contain a stepwise inner move. -/
def validate_melody_interval_7_9 (l : LocalMeasureContext) : Bool :=
  let pitches := (extended_note_buffer l 2).filterMap fun an => an.note.pitch
  (sliding pitches 3).all fun ps =>
    match ps with
    | [p1, p2, p3] =>
      let step13 := ((Interval.of p3 p1).absI).step
      if step13 = 6 ∨ step13 > 8 then
        let step12 := ((Interval.of p2 p1).absI).step
        let step23 := ((Interval.of p3 p2).absI).step
        decide (step12 = 1 ∨ step23 = 1)
      else true
    | _ => true

/-- `validator.validate_melody`. -/
def validate_melody (l : LocalMeasureContext) : Bool :=
  validate_melody_arpeggiio l && validate_melody_arpeggiio_extra l &&
    validate_melody_interval_7_9 l

/-- `validator.validate`: the measure validator (`and` short-circuits, so
the melody rules only run when the interval rules pass). -/
def validate (l : LocalMeasureContext) : Option Bool := do
  let vi ← validate_interval l
  if vi then pure (validate_melody l) else pure false

/-! ## Piece validator (`counterpoint/all_measure_validator.py`) -/

/-- `all_measure_validator.validate_part_total_range`: the span between the
lowest and highest realized pitch must not exceed an 11th (0-indexed step
10). `min`/`max` of an empty pitch list raise; Python's `min`/`max` keep the
first element among ties of the `num` key. -/
def validate_part_total_range (g : GlobalContext) : Option Bool :=
  let allPitches := g.completed_measures.foldr
    (fun m acc => (m.annotated_notes.filterMap fun an => an.note.pitch) ++ acc)
    []
  match allPitches with
  | [] => none
  | p :: ps =>
    let pMin := ps.foldl (fun acc q => if q.num < acc.num then q else acc) p
    let pMax := ps.foldl (fun acc q => if q.num > acc.num then q else acc) p
    some (decide ((Interval.of pMin pMax).step ≤ 10))

/-- `all_measure_validator.validate`. -/
def all_measure_validate (g : GlobalContext) : Option Bool :=
  validate_part_total_range g

/-! ## Search state machine (`counterpoint/state.py`) -/

/-- `state.State` and its concrete subclasses as a sum type: each search
variant carries `(GlobalContext, LocalMeasureContext)`, and
`ValidatingAllMeasureState`, `EndState`, `PrunedState` carry only the global
context (their `local_ctx` is `None`). -/
inductive State where
  | chooseSearch (g : GlobalContext) (l : LocalMeasureContext)
  | searchingStartNote (g : GlobalContext) (l : LocalMeasureContext)
  | searchingEndNote (g : GlobalContext) (l : LocalMeasureContext)
  | searchingHarmonicNote (g : GlobalContext) (l : LocalMeasureContext)
  | searchingPassingNote (g : GlobalContext) (l : LocalMeasureContext)
  | searchingNeighborNote (g : GlobalContext) (l : LocalMeasureContext)
  | validatingInMeasure (g : GlobalContext) (l : LocalMeasureContext)
  | measurePruned (g : GlobalContext) (l : LocalMeasureContext)
  | validatingAllMeasure (g : GlobalContext)
  | endState (g : GlobalContext)
  | pruned (g : GlobalContext)
deriving DecidableEq, Repr

/-- The global context carried by a state. -/
def State.globalCtx : State → GlobalContext
  | .chooseSearch g _ => g
  | .searchingStartNote g _ => g
  | .searchingEndNote g _ => g
  | .searchingHarmonicNote g _ => g
  | .searchingPassingNote g _ => g
  | .searchingNeighborNote g _ => g
  | .validatingInMeasure g _ => g
  | .measurePruned g _ => g
  | .validatingAllMeasure g => g
  | .endState g => g
  | .pruned g => g

/-- `ChooseSearchState.next_states`' fall-through branch: the three
in-measure search states, whose `__post_init__` asserts the buffer is not
yet full. -/
def chooseSearchTriple (g : GlobalContext) (l : LocalMeasureContext) :
    Option (List State) :=
  if l.total_note_buffer_duration < MEASURE_TOTAL_DURATION then
    some [.searchingHarmonicNote g l, .searchingPassingNote g l,
          .searchingNeighborNote g l]
  else none

/-- `State.next_states` for every variant. Each child-state construction
re-runs that subclass's `__post_init__` asserts; `EndState`, `PrunedState`
and `MeasurePrunedState` raise `RuntimeError("not called")`. -/
def nextStates : State → Option (List State)
  | .chooseSearch g l =>
    if l.is_buffer_fulfilled then some [.validatingInMeasure g l]
    else if l.is_last_measure then
      if l.total_note_buffer_duration = 0 then some [.searchingEndNote g l]
      else none
    else if l.is_first_measure then
      match l.current_offset with
      | none => none
      | some off =>
        if off = 0 then
          if l.total_note_buffer_duration = 0 ∧ l.next_measure_mark = none then
            some [.searchingStartNote g l]
          else none
        else chooseSearchTriple g l
    else chooseSearchTriple g l
  | .searchingStartNote g l =>
    (searchStartNoteNextCtxs l).map (List.map (State.chooseSearch g))
  | .searchingEndNote g l =>
    (searchEndNoteNextCtxs l).map (List.map (State.chooseSearch g))
  | .searchingHarmonicNote g l =>
    (searchHarmonicNoteNextCtxs l).map (List.map (State.chooseSearch g))
  | .searchingPassingNote g l =>
    (searchPassingToneNextCtxs l).map (List.map (State.chooseSearch g))
  | .searchingNeighborNote g l =>
    (searchNeighborToneNextCtxs l).map (List.map (State.chooseSearch g))
  | .validatingInMeasure g l => do
    let v ← validate l
    if ¬v then pure [.measurePruned g l]
    else do
      let g' ← g.local_ctx_appended l
      if g'.is_measures_fulfilled then pure [.validatingAllMeasure g']
      else do
        let l' ← g'.new_local_measure_countext
        pure [.chooseSearch g' l']
  | .measurePruned _ _ => none
  | .validatingAllMeasure g => do
    let v ← all_measure_validate g
    if ¬v then pure [.pruned g] else pure [.endState g]
  | .endState _ => none
  | .pruned _ => none

/-- `State.start_state`. -/
def start_state (cf : List Pitch) (rt : RythmnType) : Option State := do
  let g ← new_global_context cf rt
  let l ← g.new_local_measure_countext
  pure (.chooseSearch g l)

/-- The states `State._find_terminal_states` handles without recursing:
`EndState` and `PrunedState` yield themselves, `MeasurePrunedState` yields
nothing. -/
def State.isTraversalTerminal : State → Bool
  | .endState _ => true
  | .pruned _ => true
  | .measurePruned _ _ => true
  | _ => false

/-- `State._find_terminal_states` as a yields-relation: `YieldsTerminal s t`
holds exactly when the lazy traversal started at `s` yields the terminal
`t`. `shuffled_interleave` only interleaves the child iterators — every
yielded element is an element yielded by some child and vice versa — so the
set of yielded terminals is order- and randomization-independent and is
captured by this inductive relation. -/
inductive YieldsTerminal : State → State → Prop where
  | endSelf (g : GlobalContext) : YieldsTerminal (.endState g) (.endState g)
  | prunedSelf (g : GlobalContext) : YieldsTerminal (.pruned g) (.pruned g)
  | step {s s' t : State} {children : List State} :
      s.isTraversalTerminal = false →
      nextStates s = some children →
      s' ∈ children →
      YieldsTerminal s' t →
      YieldsTerminal s t

/-- `State.final_states` filters the yielded terminals to `EndState`s; these
are what `generate` maps to scores for the caller. -/
def FinalYield (s t : State) : Prop :=
  YieldsTerminal s t ∧ ∃ g, t = State.endState g

/-! ## Concrete pitches (`Pitch.parse` values used by the tests below) -/

def pC3 : Pitch := ⟨-1, 0⟩
def pD3 : Pitch := ⟨-2, 2⟩
def pC4 : Pitch := ⟨0, 0⟩
def pD4 : Pitch := ⟨-1, 2⟩
def pE4 : Pitch := ⟨-2, 4⟩
def pF4 : Pitch := ⟨1, -1⟩
def pG4 : Pitch := ⟨0, 1⟩
def pA4 : Pitch := ⟨-1, 3⟩
def pB4 : Pitch := ⟨-2, 5⟩
def pC5 : Pitch := ⟨1, 0⟩
def pD5 : Pitch := ⟨0, 2⟩
def pE5 : Pitch := ⟨-1, 4⟩
def pG5 : Pitch := ⟨1, 1⟩
def pA5 : Pitch := ⟨0, 3⟩

/-! ## C1 — harmonic-tone generator candidates over C4 from G4 -/

/-- The pitch each candidate context appends (the last buffer note). -/
def appendedPitches (ctxs : List LocalMeasureContext) : List (Option Pitch) :=
  ctxs.map fun c => c.note_buffer.getLast?.bind fun an => an.note.pitch

/-- The C1 scenario: first measure over cantus firmus C4 (next D4), quarter
rhythm, buffer [rest, G4], no chord commitment, no pending mark — the
randomization-free generator input of the claim. -/
def ctxC1 : LocalMeasureContext :=
  ⟨none, none, pC4, some pD4, .quaterNote, true, false, true,
   [make_annotated_note none .harmonicTone 1,
    make_annotated_note (some pG4) .harmonicTone 1], none, none⟩

/-- C1 (counterexample): with randomization disabled the harmonic-tone
generator over cantus firmus C4 with previous pitch G4 does NOT return the
claimed order [C4, E4, A4, C5, E5, G5] — E5 is never produced, because
G4→E5 is a major sixth and `VALID_MELODIC_INTERVAL_LIST` excludes major
sixths. -/
theorem harmonic_candidates_claimed_order_false :
    (searchHarmonicNoteNextCtxs ctxC1).map appendedPitches ≠
      some [some pC4, some pE4, some pA4, some pC5, some pE5, some pG5] := by
  decide

/-- C1 (amended): with randomization disabled the harmonic-tone generator,
given cantus firmus pitch C4, no committed chord constraint, no pending
next-measure mark, and previous pitch G4, returns candidate pitches in
exactly the fixed order [C4, E4, A4, C5, G5] (all consonant scale pitches
within range reachable by a legal melodic step from G4; E5 is excluded as a
major sixth from G4). -/
theorem harmonic_candidates_for_G4_over_C4 :
    (searchHarmonicNoteNextCtxs ctxC1).map appendedPitches =
      some [some pC4, some pE4, some pA4, some pC5, some pG5] := by
  decide

/-! ## C5 — single-pitch cantus firmus -/

/-- The global context `generate([C4], QUATER_NOTE)` starts from. -/
def gC5 : GlobalContext := ⟨[pC4], .quaterNote, [], none⟩

/-- Its first local measure context: the single measure is simultaneously
first and last. -/
def lC5 : LocalMeasureContext :=
  ⟨none, none, pC4, none, .quaterNote, true, true, false, [], none, none⟩

/-- C5: for the single-pitch cantus firmus [C4] under quarter-note rhythm
the engine does not produce a rest-plus-start-pitch first measure and does
not terminate normally: the start state's single measure counts as the last
measure, so `ChooseSearchState` dispatches to the end-note search, whose
generator calls `previous_latest_added_pitch` on an empty buffer with no
previous measure and raises `ValueError` (modelled by `none`). -/
theorem single_pitch_cantus_firmus_raises :
    start_state [pC4] RythmnType.quaterNote =
        some (State.chooseSearch gC5 lC5) ∧
      nextStates (State.chooseSearch gC5 lC5) =
        some [State.searchingEndNote gC5 lC5] ∧
      nextStates (State.searchingEndNote gC5 lC5) = none ∧
      searchEndNoteNextCtxs lC5 = none := by
  refine ⟨by decide, by decide, by decide, by decide⟩

/-! ## C7 — passing/neighbor generator applicability -/

/-- A last-measure context (over cantus firmus C4, previous measure a
whole-note G4 over D4) at which the claim says the passing- and
neighbor-tone generators must raise. -/
def ctx7 : LocalMeasureContext :=
  ⟨some ⟨[make_annotated_note (some pG4) .harmonicTone 4]⟩, some pD4,
   pC4, none, .quaterNote, false, true, false, [], none, none⟩

/-- C7 (counterexample): in the last measure the passing- and neighbor-tone
generators return normally with an empty candidate list — they do not raise
(`none` would model the claimed fatal error). -/
theorem passing_neighbor_last_measure_returns_normally :
    searchPassingToneNextCtxs ctx7 = some [] ∧
      searchNeighborToneNextCtxs ctx7 = some [] := by
  refine ⟨by decide, by decide⟩

/-- C7 (amended): calling the passing- or neighbor-tone generator in the
last measure or at the start of a measure returns normally with no
candidates (the guards make the generators inapplicable, not fatal); only a
beat offset outside the progression-pattern table of a quarter- or
half-note rhythm — reached with no pending mark — raises, and the
whole-note rhythm yields an empty pattern table for the passing-tone
generator while the neighbor-tone classifier raises. -/
theorem passing_neighbor_applicability :
    (∀ l : LocalMeasureContext, l.is_last_measure = true →
      searchPassingToneNextCtxs l = some [] ∧
        searchNeighborToneNextCtxs l = some []) ∧
    (∀ l : LocalMeasureContext, l.is_last_measure = false →
      l.current_offset = some 0 →
      searchPassingToneNextCtxs l = some [] ∧
        searchNeighborToneNextCtxs l = some []) ∧
    (∀ l : LocalMeasureContext, ∀ off : ℤ, l.is_last_measure = false →
      l.current_offset = some off → ¬(off = 0) →
      l.next_measure_mark = none →
      (l.rythmn_type = RythmnType.quaterNote →
        ¬(off = 1 ∨ off = 2 ∨ off = 3) →
        searchPassingToneNextCtxs l = none ∧
          searchNeighborToneNextCtxs l = none) ∧
      (l.rythmn_type = RythmnType.halfNote → ¬(off = 2) →
        searchPassingToneNextCtxs l = none ∧
          searchNeighborToneNextCtxs l = none) ∧
      (l.rythmn_type = RythmnType.wholeNote → l.next_measure_cf.isSome →
        searchPassingToneNextCtxs l = some [] ∧
          searchNeighborToneNextCtxs l = none)) := by
  refine ⟨?_, ?_, ?_⟩
  · intro l h
    constructor
    · simp [searchPassingToneNextCtxs, h]
    · simp [searchNeighborToneNextCtxs, h]
  · intro l h h0
    constructor
    · simp [searchPassingToneNextCtxs, h, h0]
    · simp [searchNeighborToneNextCtxs, h, h0]
  · intro l off h hoff hne hmark
    refine ⟨?_, ?_, ?_⟩
    · intro hrt hno
      have h1 : ¬(off = 1) := fun hc => hno (Or.inl hc)
      have h2 : ¬(off = 2) := fun hc => hno (Or.inr (Or.inl hc))
      have h3 : ¬(off = 3) := fun hc => hno (Or.inr (Or.inr hc))
      constructor
      · cases hncf : l.next_measure_cf with
        | none =>
          simp [searchPassingToneNextCtxs, h, hoff, hne, hmark, hncf]
        | some ncf =>
          simp [searchPassingToneNextCtxs, h, hoff, hne, hmark, hncf,
            progression_pattern, hrt, h1, h2, h3]
      · cases hncf : l.next_measure_cf with
        | none =>
          simp [searchNeighborToneNextCtxs, h, hoff, hne, hmark, hncf]
        | some ncf =>
          simp [searchNeighborToneNextCtxs, h, hoff, hne, hmark, hncf,
            is_target_note_in_current_measure, hrt, h1, h2, h3]
    · intro hrt h2
      constructor
      · cases hncf : l.next_measure_cf with
        | none =>
          simp [searchPassingToneNextCtxs, h, hoff, hne, hmark, hncf]
        | some ncf =>
          simp [searchPassingToneNextCtxs, h, hoff, hne, hmark, hncf,
            progression_pattern, hrt, h2]
      · cases hncf : l.next_measure_cf with
        | none =>
          simp [searchNeighborToneNextCtxs, h, hoff, hne, hmark, hncf]
        | some ncf =>
          simp [searchNeighborToneNextCtxs, h, hoff, hne, hmark, hncf,
            is_target_note_in_current_measure, hrt, h2]
    · intro hrt hsome
      obtain ⟨ncf, hncf⟩ := Option.isSome_iff_exists.mp hsome
      constructor
      · simp [searchPassingToneNextCtxs, h, hoff, hne, hmark, hncf,
          progression_pattern, hrt, passingPatternsGo]
      · simp [searchNeighborToneNextCtxs, h, hoff, hne, hmark, hncf,
          is_target_note_in_current_measure, hrt]

/-- C7 witness: the amended statement instantiated at `ctx7` (last measure)
and at a half-note-rhythm context stuck at offset 1. -/
theorem passing_neighbor_applicability_witness :
    searchPassingToneNextCtxs ctx7 = some [] ∧
      searchNeighborToneNextCtxs ctx7 = some [] := by
  exact passing_neighbor_applicability.1 ctx7 (by decide)

/-! ## C6 — end-note generator -/

/-- A successful `dataclasses.replace` carries exactly the given buffer,
mark and chord commitment. -/
theorem replaced_fields {l : LocalMeasureContext} {buf : List AnnotatedNote}
    {mark : Option Pitch} {rc : Option Bool} {c : LocalMeasureContext}
    (h : l.replaced buf mark rc = some c) :
    c.note_buffer = buf ∧ c.next_measure_mark = mark ∧ c.is_root_chord = rc := by
  unfold LocalMeasureContext.replaced mkLocalMeasureContext at h
  split at h
  · cases h; exact ⟨rfl, rfl, rfl⟩
  · cases h

/-- C6: in the end-note generator with no pending cross-measure mark, every
returned candidate appends a single whole-note (duration 4) Harmonic-tagged
note that fills the last measure regardless of the rhythm type, its melodic
interval from the previous sounding pitch is in
`VALID_MELODIC_INTERVAL_LIST` = {m2, M2, m3, M3, P4, P5, m6, P8}, and in
particular a unison approach into the final note is never produced. -/
theorem end_note_candidates (l : LocalMeasureContext)
    (out : List LocalMeasureContext) (prev : Pitch) (c : LocalMeasureContext)
    (hmark : l.next_measure_mark = none)
    (hgen : searchEndNoteNextCtxs l = some out)
    (hprev : l.previous_latest_added_pitch = some prev)
    (hc : c ∈ out) :
    ∃ p : Pitch,
      c.note_buffer = [make_annotated_note (some p) ToneType.harmonicTone 4] ∧
      c.next_measure_mark = none ∧
      (Interval.of prev p).absI ∈ VALID_MELODIC_INTERVAL_LIST ∧
      p ≠ prev := by
  unfold searchEndNoteNextCtxs at hgen
  rw [hmark] at hgen
  cases hps : end_available_pitches l l.current_cf with
  | none => rw [hps] at hgen; simp at hgen
  | some ps =>
    rw [hps, hprev] at hgen
    simp only [Option.bind_eq_bind, Option.some_bind, Option.pure_def] at hgen
    obtain ⟨p, hpmem, hrep⟩ := optionMapM_mem _ hgen c hc
    obtain ⟨hpin, hpvalid⟩ := List.mem_filter.mp hpmem
    obtain ⟨hbuf, hmark', _⟩ := replaced_fields hrep
    refine ⟨p, hbuf, hmark', ?_, ?_⟩
    · exact of_decide_eq_true hpvalid
    · intro heq
      subst heq
      have hself : Interval.of p p = ⟨0, 0⟩ := by
        simp [Interval.of]
      rw [hself] at hpvalid
      exact absurd (of_decide_eq_true hpvalid) (by decide)

/-- The two candidate contexts of the end-note generator at `ctx7`. -/
def ctxEndC4 : LocalMeasureContext :=
  ⟨some ⟨[make_annotated_note (some pG4) .harmonicTone 4]⟩, some pD4,
   pC4, none, .quaterNote, false, true, false,
   [make_annotated_note (some pC4) .harmonicTone 4], some true, none⟩

def ctxEndC5 : LocalMeasureContext :=
  ⟨some ⟨[make_annotated_note (some pG4) .harmonicTone 4]⟩, some pD4,
   pC4, none, .quaterNote, false, true, false,
   [make_annotated_note (some pC5) .harmonicTone 4], some true, none⟩

/-- C6 witness: the theorem instantiated at `ctx7` (previous pitch G4 over
cantus firmus C4), whose candidates are exactly C4 and C5. -/
theorem end_note_candidates_witness :
    ∃ p : Pitch,
      ctxEndC4.note_buffer =
        [make_annotated_note (some p) ToneType.harmonicTone 4] ∧
      ctxEndC4.next_measure_mark = none ∧
      (Interval.of pG4 p).absI ∈ VALID_MELODIC_INTERVAL_LIST ∧
      p ≠ pG4 :=
  end_note_candidates ctx7 [ctxEndC4, ctxEndC5] pG4 ctxEndC4
    (by decide) (by decide) (by decide) (by decide)

/-! ## C2 — direct parallel/hidden fifths and octaves across the barline -/

/-- C2: from the second measure on, if the previous measure ends on pitch A
over cantus-firmus pitch X and the current buffer starts on pitch B over
cantus-firmus pitch Y (both non-rest), the pairs move in parallel or
contrary motion, and the outer intervals normalize both to P1, both to P5,
or to d5→P5 or P5→d5, then the measure validator returns false. -/
theorem parallel_fifths_octaves_rejected
    (l : LocalMeasureContext) (pm : AnnotatedMeasure)
    (lastAn firstAn : AnnotatedNote) (A B X Y : Pitch)
    (hfirst : l.is_first_measure = false)
    (hpm : l.previous_measure = some pm)
    (hpcf : l.previous_cf = some X)
    (hY : l.current_cf = Y)
    (hlast : pm.annotated_notes.getLast? = some lastAn)
    (hlastp : lastAn.note.pitch = some A)
    (hhead : l.note_buffer.head? = some firstAn)
    (hheadp : firstAn.note.pitch = some B)
    (hmotion : check_is_parallel_motion (X, Y) (A, B) = true ∨
      check_is_contrary_motion (X, Y) (A, B) = true)
    (hints :
      ((Interval.of X A).normalize = some iP1 ∧
        (Interval.of Y B).normalize = some iP1) ∨
      ((Interval.of X A).normalize = some iP5 ∧
        (Interval.of Y B).normalize = some iP5) ∨
      ((Interval.of X A).normalize = some idim5 ∧
        (Interval.of Y B).normalize = some iP5) ∨
      ((Interval.of X A).normalize = some iP5 ∧
        (Interval.of Y B).normalize = some idim5)) :
    validate l = some false := by
  have hguard :
      ¬¬(check_is_parallel_motion (X, Y) (A, B) = true ∨
        check_is_contrary_motion (X, Y) (A, B) = true) :=
    not_not_intro hmotion
  have hpv : check_is_parallel_violation (X, Y) (A, B) = some true := by
    unfold check_is_parallel_violation
    rw [if_neg hguard]
    rcases hints with ⟨h1, h2⟩ | ⟨h1, h2⟩ | ⟨h1, h2⟩ | ⟨h1, h2⟩ <;>
      simp only [h1, h2, Option.bind_eq_bind, Option.some_bind] <;> decide
  have hvi : validate_interval l = some false := by
    unfold validate_interval
    rw [hfirst]
    simp only [Bool.false_eq_true, if_false]
    rw [hpm, hpcf]
    simp only [hlast, hhead, hY, Option.bind_eq_bind, Option.some_bind]
    rw [hlastp, hheadp]
    simp [hpv]
  unfold validate
  rw [hvi]
  simp

/-- A context rejected by C2: previous measure a whole-note G4 over C4, the
current (last) measure a whole-note A4 over D4 — parallel perfect fifths. -/
def ctxW2 : LocalMeasureContext :=
  ⟨some ⟨[make_annotated_note (some pG4) .harmonicTone 4]⟩, some pC4,
   pD4, none, .quaterNote, false, true, false,
   [make_annotated_note (some pA4) .harmonicTone 4], some true, none⟩

/-- C2 witness: C4→D4 against G4→A4, parallel motion into P5 on both ends,
is rejected. -/
theorem parallel_fifths_octaves_rejected_witness :
    validate ctxW2 = some false :=
  parallel_fifths_octaves_rejected ctxW2
    ⟨[make_annotated_note (some pG4) .harmonicTone 4]⟩
    (make_annotated_note (some pG4) .harmonicTone 4)
    (make_annotated_note (some pA4) .harmonicTone 4)
    pG4 pA4 pC4 pD4
    rfl rfl rfl rfl (by decide) rfl (by decide) rfl
    (Or.inl (by decide))
    (Or.inr (Or.inl ⟨by decide, by decide⟩))

/-! ## C8 — generator candidates stay in the voice range: helper lemmas -/

/-- The pitches (rests dropped) of a note list. -/
def pitchesOfNotes (notes : List AnnotatedNote) : List Pitch :=
  notes.filterMap fun an => an.note.pitch

/-- Hypothesis for the range invariant: every pitch already recorded in the
context (buffer, pending mark, previous measure) is one of the generator's
own in-range scale pitches. -/
def ctxPitchesAvailable (l : LocalMeasureContext) : Prop :=
  (∀ p ∈ pitchesOfNotes l.note_buffer, p ∈ AVAILABLE_PITCHES_LIST) ∧
  (∀ p, l.next_measure_mark = some p → p ∈ AVAILABLE_PITCHES_LIST) ∧
  (∀ pm, l.previous_measure = some pm →
    ∀ p ∈ pitchesOfNotes pm.annotated_notes, p ∈ AVAILABLE_PITCHES_LIST)

theorem mem_of_getLast?_eq {α : Type} {l : List α} {a : α}
    (h : l.getLast? = some a) : a ∈ l := by
  have hx : a ∈ l.getLast? := by rw [h]; rfl
  obtain ⟨hne, heq⟩ := List.mem_getLast?_eq_getLast hx
  rw [heq]
  exact List.getLast_mem hne

/-- The previous-latest pitch of a context whose recorded pitches are all
available is itself available. -/
theorem prev_latest_available {l : LocalMeasureContext} {p : Pitch}
    (hctx : ctxPitchesAvailable l)
    (h : l.previous_latest_added_pitch = some p) :
    p ∈ AVAILABLE_PITCHES_LIST := by
  unfold LocalMeasureContext.previous_latest_added_pitch at h
  cases hlast : l.note_buffer.getLast? with
  | some an =>
    rw [hlast] at h
    simp only at h
    exact hctx.1 p (List.mem_filterMap.mpr ⟨an, mem_of_getLast?_eq hlast, h⟩)
  | none =>
    rw [hlast] at h
    simp only at h
    cases hpm : l.previous_measure with
    | none => rw [hpm] at h; simp only at h; cases h
    | some pm =>
      rw [hpm] at h
      simp only [Option.bind_eq_bind] at h
      cases hlast2 : pm.annotated_notes.getLast? with
      | none => rw [hlast2] at h; simp at h
      | some an =>
        rw [hlast2] at h
        simp only [Option.some_bind] at h
        exact hctx.2.2 pm hpm p
          (List.mem_filterMap.mpr ⟨an, mem_of_getLast?_eq hlast2, h⟩)

/-- `availableHarmonicGo` only returns pitches from its input list. -/
theorem availableHarmonicGo_subset {cf : Pitch} {dict : List (ℤ × Option Bool)} :
    ∀ {xs : List Pitch} {res : List (Pitch × Option Bool)},
      availableHarmonicGo cf dict xs = some res →
      ∀ pc ∈ res, pc.1 ∈ xs := by
  intro xs
  induction xs with
  | nil =>
    intro res h pc hpc
    simp only [availableHarmonicGo] at h
    cases h
    simp at hpc
  | cons x xs ih =>
    intro res h pc hpc
    simp only [availableHarmonicGo, Option.bind_eq_bind] at h
    cases hn : (Interval.of cf x).normalize with
    | none => rw [hn] at h; simp at h
    | some n =>
      rw [hn] at h
      simp only [Option.some_bind] at h
      cases hrest : availableHarmonicGo cf dict xs with
      | none => rw [hrest] at h; simp at h
      | some rest' =>
        rw [hrest] at h
        simp only [Option.some_bind] at h
        cases hl : dict.lookup n.step with
        | some v =>
          rw [hl] at h
          simp only [Option.pure_def, Option.some_inj] at h
          subst h
          rcases List.mem_cons.mp hpc with hpc | hpc
          · subst hpc; exact List.mem_cons_self x xs
          · exact List.mem_cons_of_mem x (ih hrest pc hpc)
        | none =>
          rw [hl] at h
          simp only [Option.pure_def, Option.some_inj] at h
          subst h
          exact List.mem_cons_of_mem x (ih hrest pc hpc)

/-- `available_harmonic_pitches_with_chord` only returns available pitches. -/
theorem available_harmonic_subset {l : LocalMeasureContext}
    {res : List (Pitch × Option Bool)}
    (h : available_harmonic_pitches_with_chord l = some res) :
    ∀ pc ∈ res, pc.1 ∈ AVAILABLE_PITCHES_LIST := by
  intro pc hpc
  have := availableHarmonicGo_subset h pc hpc
  exact (List.mem_filter.mp this).1

/-- `availablePitchesGo` only returns pitches from its input list. -/
theorem availablePitchesGo_subset {cf : Pitch} :
    ∀ {xs res : List Pitch}, availablePitchesGo cf xs = some res →
      ∀ p ∈ res, p ∈ xs := by
  intro xs
  induction xs with
  | nil =>
    intro res h p hp
    simp only [availablePitchesGo] at h
    cases h
    simp at hp
  | cons x xs ih =>
    intro res h p hp
    simp only [availablePitchesGo] at h
    split at h
    · simp only [Option.bind_eq_bind] at h
      cases hn : (Interval.of cf x).normalize with
      | none => rw [hn] at h; simp at h
      | some n =>
        rw [hn] at h
        simp only [Option.some_bind] at h
        cases hrest : availablePitchesGo cf xs with
        | none => rw [hrest] at h; simp at h
        | some rest' =>
          rw [hrest] at h
          simp only [Option.some_bind] at h
          split at h
          · simp only [Option.pure_def, Option.some_inj] at h
            subst h
            rcases List.mem_cons.mp hp with hp | hp
            · rw [hp]; exact List.mem_cons_self x xs
            · exact List.mem_cons_of_mem x (ih hrest p hp)
          · simp only [Option.pure_def, Option.some_inj] at h
            subst h
            exact List.mem_cons_of_mem x (ih hrest p hp)
    · exact List.mem_cons_of_mem x (ih h p hp)

/-- `available_pitches` only returns available pitches. -/
theorem available_pitches_subset {l : LocalMeasureContext} {cf : Pitch}
    {res : List Pitch} (h : available_pitches l cf = some res) :
    ∀ p ∈ res, p ∈ AVAILABLE_PITCHES_LIST :=
  fun p hp => availablePitchesGo_subset h p hp

/-- `start_available_pitches` only returns available pitches. -/
theorem start_available_subset {l : LocalMeasureContext} {cf : Pitch}
    {res : List Pitch} (h : start_available_pitches l cf = some res) :
    ∀ p ∈ res, p ∈ AVAILABLE_PITCHES_LIST := by
  intro p hp
  unfold start_available_pitches at h
  cases hc : optionMapM (fun i => pitchAdd cf i) [iP1, iP5, iP8, iP12, iP15] with
  | none => rw [hc] at h; simp at h
  | some cands =>
    rw [hc] at h
    simp only [Option.bind_eq_bind, Option.some_bind, Option.pure_def,
      Option.some_inj] at h
    subst h
    exact of_decide_eq_true (List.mem_filter.mp hp).2

/-- `end_available_pitches` only returns available pitches. -/
theorem end_available_subset {l : LocalMeasureContext} {cf : Pitch}
    {res : List Pitch} (h : end_available_pitches l cf = some res) :
    ∀ p ∈ res, p ∈ AVAILABLE_PITCHES_LIST := by
  intro p hp
  unfold end_available_pitches at h
  cases hc : optionMapM (fun i => pitchAdd cf i) [iP1, iP8, iP15] with
  | none => rw [hc] at h; simp at h
  | some cands =>
    rw [hc] at h
    simp only [Option.bind_eq_bind, Option.some_bind, Option.pure_def,
      Option.some_inj] at h
    subst h
    exact of_decide_eq_true (List.mem_filter.mp hp).2

/-- `neighborPitchesGo` only returns available pitches (the in-range check
is built into the loop). -/
theorem neighborPitchesGo_subset {prev : Pitch} :
    ∀ {steps : List ℤ} {res : List Pitch},
      neighborPitchesGo prev steps = some res →
      ∀ p ∈ res, p ∈ AVAILABLE_PITCHES_LIST := by
  intro steps
  induction steps with
  | nil =>
    intro res h p hp
    simp only [neighborPitchesGo] at h
    cases h
    simp at hp
  | cons s steps ih =>
    intro res h p hp
    simp only [neighborPitchesGo, Option.bind_eq_bind] at h
    cases hnp : addIntervalStepInKey KEY prev s with
    | none => rw [hnp] at h; simp at h
    | some np =>
      rw [hnp] at h
      simp only [Option.some_bind] at h
      cases hrest : neighborPitchesGo prev steps with
      | none => rw [hrest] at h; simp at h
      | some rest' =>
        rw [hrest] at h
        simp only [Option.some_bind, Option.pure_def, Option.some_inj] at h
        subst h
        split at hp
        · rcases List.mem_cons.mp hp with hp | hp
          · subst hp; assumption
          · exact ih hrest p hp
        · exact ih hrest p hp
/-- Checker for the passing-tone runs: for a given previous pitch and step,
if both the run and the target are computed, the run ends exactly at the
target, and whenever the target is an available pitch the whole run stays
among the available pitches. -/
def conjunctCheck (prev : Pitch) (s : ℤ) : Bool :=
  match conjunct_pitches KEY prev s, addIntervalStepInKey KEY prev s with
  | some run, some target =>
    decide (run.getLast? = some target) &&
      (!decide (target ∈ AVAILABLE_PITCHES_LIST) ||
        run.all fun q => decide (q ∈ AVAILABLE_PITCHES_LIST))
  | _, _ => true

/-- The conjunct-run check holds for every available previous pitch and
every step the progression-pattern table can produce (finite case check). -/
theorem conjunct_run_available :
    ∀ prev ∈ AVAILABLE_PITCHES_LIST, ∀ s ∈ ([2, 3, 4, -2, -3, -4] : List ℤ),
      conjunctCheck prev s = true := by decide

/-- The neighbor-step check (±1) likewise (used with the in-range filter it
is not needed for range, but the crossing mark reuses the previous pitch).
-/
theorem progression_pattern_steps {off : ℤ} {rt : RythmnType}
    {pats : List (ℤ × Bool)} (h : progression_pattern off rt = some pats) :
    ∀ pr ∈ pats, pr.1 ∈ ([2, 3, 4, -2, -3, -4] : List ℤ) := by
  intro pr hpr
  unfold progression_pattern at h
  cases rt with
  | quaterNote =>
    simp only at h
    split_ifs at h
    · simp only [Option.map_some', Option.some_inj] at h
      subst h; fin_cases hpr <;> decide
    · simp only [Option.map_some', Option.some_inj] at h
      subst h; fin_cases hpr <;> decide
    · simp only [Option.map_some', Option.some_inj] at h
      subst h; fin_cases hpr <;> decide
    · simp at h
  | halfNote =>
    simp only at h
    split_ifs at h
    · simp only [Option.map_some', Option.some_inj] at h
      subst h; fin_cases hpr <;> decide
    · simp at h
  | wholeNote =>
    simp only [Option.map_some', Option.some_inj] at h
    subst h
    simp at hpr

/-- Unpacked form of `conjunct_run_available` for use at a successful
run/target computation. -/
theorem conjunct_run_available_apply {prev : Pitch} {s : ℤ}
    {run : List Pitch} {target : Pitch}
    (hprev : prev ∈ AVAILABLE_PITCHES_LIST)
    (hs : s ∈ ([2, 3, 4, -2, -3, -4] : List ℤ))
    (hrun : conjunct_pitches KEY prev s = some run)
    (htarget : addIntervalStepInKey KEY prev s = some target) :
    run.getLast? = some target ∧
      (target ∈ AVAILABLE_PITCHES_LIST →
        ∀ q ∈ run, q ∈ AVAILABLE_PITCHES_LIST) := by
  have hch := conjunct_run_available prev hprev s hs
  unfold conjunctCheck at hch
  rw [hrun, htarget] at hch
  simp only [Bool.and_eq_true, Bool.or_eq_true, Bool.not_eq_true',
    decide_eq_true_eq, decide_eq_false_iff_not, List.all_eq_true] at hch
  refine ⟨hch.1, ?_⟩
  intro htin q hq
  rcases hch.2 with hno | hall
  · exact absurd htin hno
  · exact hall q hq

/-- Conclusion of the range invariant: every pitch the candidate context
records (buffer and pending mark) is an available scale pitch. -/
def outputPitchesAvailable (c : LocalMeasureContext) : Prop :=
  (∀ p ∈ pitchesOfNotes c.note_buffer, p ∈ AVAILABLE_PITCHES_LIST) ∧
  (∀ p, c.next_measure_mark = some p → p ∈ AVAILABLE_PITCHES_LIST)

/-- Start-note candidates only record available pitches. -/
theorem start_note_outputs_available {l : LocalMeasureContext}
    {out : List LocalMeasureContext} {c : LocalMeasureContext}
    (hgen : searchStartNoteNextCtxs l = some out) (hc : c ∈ out) :
    outputPitchesAvailable c := by
  unfold searchStartNoteNextCtxs at hgen
  cases hps : start_available_pitches l l.current_cf with
  | none => rw [hps] at hgen; simp at hgen
  | some ps =>
    rw [hps] at hgen
    simp only [Option.bind_eq_bind, Option.some_bind] at hgen
    obtain ⟨p, hpmem, hrep⟩ := optionMapM_mem _ hgen c hc
    have hpin : p ∈ AVAILABLE_PITCHES_LIST := start_available_subset hps p hpmem
    cases hrt : l.rythmn_type <;> rw [hrt] at hrep <;> simp only at hrep <;>
      obtain ⟨hbuf, hmark, _⟩ := replaced_fields hrep <;>
      refine ⟨?_, ?_⟩ <;>
      first
      | (intro q hq
         rw [hbuf] at hq
         simp [pitchesOfNotes, make_annotated_note] at hq
         rw [hq]; exact hpin)
      | (intro q hq; rw [hmark] at hq; cases hq)

/-- End-note candidates only record available pitches (a pending mark must
itself be available). -/
theorem end_note_outputs_available {l : LocalMeasureContext}
    {out : List LocalMeasureContext} {c : LocalMeasureContext}
    (hmark : ∀ p, l.next_measure_mark = some p → p ∈ AVAILABLE_PITCHES_LIST)
    (hgen : searchEndNoteNextCtxs l = some out) (hc : c ∈ out) :
    outputPitchesAvailable c := by
  unfold searchEndNoteNextCtxs at hgen
  cases hm : l.next_measure_mark with
  | some mark =>
    rw [hm] at hgen
    simp only [Option.bind_eq_bind, Option.some_bind, Option.pure_def] at hgen
    obtain ⟨p, hpmem, hrep⟩ := optionMapM_mem _ hgen c hc
    obtain ⟨hbuf, hmark', _⟩ := replaced_fields hrep
    have hpeq : p = mark := by simpa using hpmem
    refine ⟨?_, ?_⟩
    · intro q hq
      rw [hbuf] at hq
      simp [pitchesOfNotes, make_annotated_note] at hq
      rw [hq, hpeq]; exact hmark mark hm
    · intro q hq; rw [hmark'] at hq; cases hq
  | none =>
    rw [hm] at hgen
    cases hps : end_available_pitches l l.current_cf with
    | none => rw [hps] at hgen; simp at hgen
    | some ps =>
      rw [hps] at hgen
      cases hprev : l.previous_latest_added_pitch with
      | none => rw [hprev] at hgen; simp at hgen
      | some prev =>
        rw [hprev] at hgen
        simp only [Option.bind_eq_bind, Option.some_bind, Option.pure_def]
          at hgen
        obtain ⟨p, hpmem, hrep⟩ := optionMapM_mem _ hgen c hc
        obtain ⟨hbuf, hmark', _⟩ := replaced_fields hrep
        have hpin : p ∈ AVAILABLE_PITCHES_LIST :=
          end_available_subset hps p (List.mem_filter.mp hpmem).1
        refine ⟨?_, ?_⟩
        · intro q hq
          rw [hbuf] at hq
          simp [pitchesOfNotes, make_annotated_note] at hq
          rw [hq]; exact hpin
        · intro q hq; rw [hmark'] at hq; cases hq

/-- Harmonic-tone candidates only record available pitches. -/
theorem harmonic_outputs_available {l : LocalMeasureContext}
    {out : List LocalMeasureContext} {c : LocalMeasureContext}
    (hctx : ctxPitchesAvailable l)
    (hgen : searchHarmonicNoteNextCtxs l = some out) (hc : c ∈ out) :
    outputPitchesAvailable c := by
  unfold searchHarmonicNoteNextCtxs at hgen
  have hfinish :
      ∀ pcList : List (Pitch × Option Bool),
        (∀ pc ∈ pcList, pc.1 ∈ AVAILABLE_PITCHES_LIST) →
        optionMapM (fun pc =>
          l.replaced
            (l.note_buffer ++
              [make_annotated_note (some pc.1) .harmonicTone
                l.rythmn_type.note_duration])
            none pc.2) pcList = some out →
        outputPitchesAvailable c := by
    intro pcList hsub hmapm
    obtain ⟨pc, hpcmem, hrep⟩ := optionMapM_mem _ hmapm c hc
    obtain ⟨hbuf, hmark', _⟩ := replaced_fields hrep
    refine ⟨?_, ?_⟩
    · intro q hq
      rw [hbuf] at hq
      unfold pitchesOfNotes at hq
      rw [List.filterMap_append] at hq
      rcases List.mem_append.mp hq with hq | hq
      · exact hctx.1 q hq
      · simp [make_annotated_note] at hq
        rw [hq]; exact hsub pc hpcmem
    · intro q hq; rw [hmark'] at hq; cases hq
  cases hm : l.next_measure_mark with
  | some mark =>
    rw [hm] at hgen
    simp only at hgen
    have hmarkav : mark ∈ AVAILABLE_PITCHES_LIST := hctx.2.1 mark hm
    have hfin1 : ∀ rc : Option Bool,
        optionMapM (fun pc =>
          l.replaced
            (l.note_buffer ++
              [make_annotated_note (some pc.1) .harmonicTone
                l.rythmn_type.note_duration])
            none pc.2) [(mark, rc)] = some out →
        outputPitchesAvailable c := by
      intro rc hmm
      exact hfinish [(mark, rc)]
        (by intro pc hpc; simp only [List.mem_singleton] at hpc;
            rw [hpc]; exact hmarkav)
        hmm
    cases hn : (Interval.of mark l.current_cf).normalize with
    | none => rw [hn] at hgen; simp at hgen
    | some n =>
      rw [hn] at hgen
      simp only [Option.bind_eq_bind, Option.some_bind] at hgen
      split_ifs at hgen
      · exact hfin1 (some true) (by simpa using hgen)
      · exact hfin1 (some false) (by simpa using hgen)
      · exact hfin1 none (by simpa using hgen)
      · simp at hgen
  | none =>
    rw [hm] at hgen
    cases hprev : l.previous_latest_added_pitch with
    | none => rw [hprev] at hgen; simp at hgen
    | some prev =>
      rw [hprev] at hgen
      cases hav : available_harmonic_pitches_with_chord l with
      | none => rw [hav] at hgen; simp at hgen
      | some avail =>
        rw [hav] at hgen
        simp only [Option.bind_eq_bind, Option.some_bind, Option.pure_def]
          at hgen
        exact hfinish _
          (fun pc hpc =>
            available_harmonic_subset hav pc (List.mem_filter.mp hpc).1)
          hgen

/-- Every context produced by the pattern loop comes from one pattern. -/
theorem passingPatternsGo_mem {l : LocalMeasureContext} {ncf : Pitch} :
    ∀ {pats : List (ℤ × Bool)} {out : List LocalMeasureContext},
      passingPatternsGo l ncf pats = some out →
      ∀ c ∈ out, ∃ pr ∈ pats, ∃ sub,
        passingPatternCtxs l ncf pr.1 pr.2 = some sub ∧ c ∈ sub := by
  intro pats
  induction pats with
  | nil =>
    intro out h c hc
    simp only [passingPatternsGo] at h
    cases h
    simp at hc
  | cons pr pats ih =>
    intro out h c hc
    simp only [passingPatternsGo, Option.bind_eq_bind] at h
    cases hsub : passingPatternCtxs l ncf pr.1 pr.2 with
    | none => rw [hsub] at h; simp at h
    | some sub =>
      rw [hsub] at h
      simp only [Option.some_bind] at h
      cases hrest : passingPatternsGo l ncf pats with
      | none => rw [hrest] at h; simp at h
      | some rest =>
        rw [hrest] at h
        simp only [Option.some_bind, Option.pure_def, Option.some_inj] at h
        subst h
        rcases List.mem_append.mp hc with hc | hc
        · exact ⟨pr, List.mem_cons_self pr pats, sub, hsub, hc⟩
        · obtain ⟨pr', hpr', sub', hsub', hc'⟩ := ih hrest c hc
          exact ⟨pr', List.mem_cons_of_mem pr hpr', sub', hsub', hc'⟩

/-- A single passing-tone pattern only records available pitches. -/
theorem passing_pattern_outputs_available {l : LocalMeasureContext}
    {ncf : Pitch} {step : ℤ} {inCurrent : Bool}
    {sub : List LocalMeasureContext} {c : LocalMeasureContext}
    (hctx : ctxPitchesAvailable l)
    (hstep : step ∈ ([2, 3, 4, -2, -3, -4] : List ℤ))
    (hgen : passingPatternCtxs l ncf step inCurrent = some sub)
    (hc : c ∈ sub) : outputPitchesAvailable c := by
  unfold passingPatternCtxs at hgen
  cases hprev : l.previous_latest_added_pitch with
  | none => rw [hprev] at hgen; simp at hgen
  | some prev =>
    rw [hprev] at hgen
    simp only [Option.bind_eq_bind, Option.some_bind] at hgen
    have hprevav : prev ∈ AVAILABLE_PITCHES_LIST :=
      prev_latest_available hctx hprev
    cases htarget : addIntervalStepInKey KEY prev step with
    | none => rw [htarget] at hgen; simp at hgen
    | some target =>
      rw [htarget] at hgen
      simp only [Option.some_bind] at hgen
      cases inCurrent with
      | true =>
        simp only [if_true] at hgen
        cases hav : available_harmonic_pitches_with_chord l with
        | none => rw [hav] at hgen; simp at hgen
        | some avail =>
          rw [hav] at hgen
          simp only [Option.some_bind] at hgen
          obtain ⟨pc, hpcmem, hbody⟩ := optionMapM_mem _ hgen c hc
          obtain ⟨hpcav, hpct⟩ := List.mem_filter.mp hpcmem
          have htargetav : target ∈ AVAILABLE_PITCHES_LIST := by
            rw [of_decide_eq_true hpct]
            exact available_harmonic_subset hav pc hpcav
          cases hrun : conjunct_pitches KEY prev step with
          | none => rw [hrun] at hbody; simp at hbody
          | some run =>
            rw [hrun] at hbody
            simp only [Option.bind_eq_bind, Option.some_bind] at hbody
            obtain ⟨hlastt, hallrun⟩ :=
              conjunct_run_available_apply hprevav hstep hrun htarget
            rw [hlastt] at hbody
            simp only [Option.some_bind] at hbody
            obtain ⟨hbuf, hmark', _⟩ := replaced_fields hbody
            have hrunav := hallrun htargetav
            refine ⟨?_, ?_⟩
            · intro q hq
              rw [hbuf] at hq
              unfold pitchesOfNotes at hq
              rw [List.filterMap_append, List.filterMap_append] at hq
              rcases List.mem_append.mp hq with hq | hq
              · rcases List.mem_append.mp hq with hq | hq
                · exact hctx.1 q hq
                · rw [List.filterMap_map] at hq
                  obtain ⟨a, ha, haq⟩ := List.mem_filterMap.mp hq
                  simp only [Function.comp, make_annotated_note,
                    Option.some_inj] at haq
                  rw [← haq]
                  exact hrunav a (List.dropLast_subset run ha)
              · simp [make_annotated_note] at hq
                rw [hq]
                exact hrunav target (mem_of_getLast?_eq hlastt)
            · intro q hq; rw [hmark'] at hq; cases hq
      | false =>
        simp only [if_false, Bool.false_eq_true] at hgen
        have hmain : ∀ aps : List Pitch,
            (∀ p ∈ aps, p ∈ AVAILABLE_PITCHES_LIST) →
            optionMapM (fun _ => do
              let pitches ← conjunct_pitches KEY prev step
              let lastP ← pitches.getLast?
              l.replaced
                (l.note_buffer ++
                  (pitches.dropLast.map fun p =>
                    make_annotated_note (some p) .passingTone
                      l.rythmn_type.note_duration))
                (some lastP) l.is_root_chord)
              (aps.filter fun ap => decide (target = ap)) = some sub →
            outputPitchesAvailable c := by
          intro aps hapsav hmm
          obtain ⟨ap, hapmem, hbody⟩ := optionMapM_mem _ hmm c hc
          obtain ⟨hapav, hapt⟩ := List.mem_filter.mp hapmem
          have htargetav : target ∈ AVAILABLE_PITCHES_LIST := by
            rw [of_decide_eq_true hapt]
            exact hapsav ap hapav
          cases hrun : conjunct_pitches KEY prev step with
          | none => rw [hrun] at hbody; simp at hbody
          | some run =>
            rw [hrun] at hbody
            simp only [Option.bind_eq_bind, Option.some_bind] at hbody
            obtain ⟨hlastt, hallrun⟩ :=
              conjunct_run_available_apply hprevav hstep hrun htarget
            rw [hlastt] at hbody
            simp only [Option.some_bind] at hbody
            obtain ⟨hbuf, hmark', _⟩ := replaced_fields hbody
            have hrunav := hallrun htargetav
            refine ⟨?_, ?_⟩
            · intro q hq
              rw [hbuf] at hq
              unfold pitchesOfNotes at hq
              rw [List.filterMap_append] at hq
              rcases List.mem_append.mp hq with hq | hq
              · exact hctx.1 q hq
              · rw [List.filterMap_map] at hq
                obtain ⟨a, ha, haq⟩ := List.mem_filterMap.mp hq
                simp only [Function.comp, make_annotated_note,
                  Option.some_inj] at haq
                rw [← haq]
                exact hrunav a (List.dropLast_subset run ha)
            · intro q hq
              rw [hmark'] at hq
              cases hq
              exact hrunav target (mem_of_getLast?_eq hlastt)
        cases hnl : l.is_next_last_measure <;> rw [hnl] at hgen <;>
          simp only [if_true, if_false, Bool.false_eq_true] at hgen
        · cases hback : available_pitches l ncf with
          | none => rw [hback] at hgen; simp at hgen
          | some aps =>
            rw [hback] at hgen
            simp only [Option.some_bind] at hgen
            exact hmain aps (available_pitches_subset hback) hgen
        · cases hback : end_available_pitches l ncf with
          | none => rw [hback] at hgen; simp at hgen
          | some aps =>
            rw [hback] at hgen
            simp only [Option.some_bind] at hgen
            exact hmain aps (end_available_subset hback) hgen

/-- Passing-tone candidates only record available pitches. -/
theorem passing_outputs_available {l : LocalMeasureContext}
    {out : List LocalMeasureContext} {c : LocalMeasureContext}
    (hctx : ctxPitchesAvailable l)
    (hgen : searchPassingToneNextCtxs l = some out) (hc : c ∈ out) :
    outputPitchesAvailable c := by
  unfold searchPassingToneNextCtxs at hgen
  cases hlm : l.is_last_measure with
  | true =>
    rw [hlm] at hgen
    simp only [if_true, Option.pure_def, Option.some_inj] at hgen
    subst hgen; simp at hc
  | false =>
    rw [hlm] at hgen
    simp only [if_false, Bool.false_eq_true, Option.bind_eq_bind] at hgen
    cases hoff : l.current_offset with
    | none => rw [hoff] at hgen; simp at hgen
    | some off =>
      rw [hoff] at hgen
      simp only [Option.some_bind] at hgen
      by_cases h0 : off = 0
      · rw [if_pos h0] at hgen
        simp only [Option.pure_def, Option.some_inj] at hgen
        subst hgen; simp at hc
      · rw [if_neg h0] at hgen
        cases hm : l.next_measure_mark with
        | some mark =>
          rw [hm] at hgen
          simp only [Option.pure_def, Option.some_inj] at hgen
          subst hgen; simp at hc
        | none =>
          rw [hm] at hgen
          simp only at hgen
          cases hncf : l.next_measure_cf with
          | none => rw [hncf] at hgen; simp at hgen
          | some ncf =>
            rw [hncf] at hgen
            simp only [Option.some_bind] at hgen
            cases hpat : progression_pattern off l.rythmn_type with
            | none => rw [hpat] at hgen; simp at hgen
            | some pats =>
              rw [hpat] at hgen
              simp only [Option.some_bind] at hgen
              obtain ⟨pr, hpr, sub, hsub, hcsub⟩ :=
                passingPatternsGo_mem hgen c hc
              exact passing_pattern_outputs_available hctx
                (progression_pattern_steps hpat pr hpr) hsub hcsub

/-- Neighbor-tone candidates only record available pitches. -/
theorem neighbor_outputs_available {l : LocalMeasureContext}
    {out : List LocalMeasureContext} {c : LocalMeasureContext}
    (hctx : ctxPitchesAvailable l)
    (hgen : searchNeighborToneNextCtxs l = some out) (hc : c ∈ out) :
    outputPitchesAvailable c := by
  unfold searchNeighborToneNextCtxs at hgen
  cases hlm : l.is_last_measure with
  | true =>
    rw [hlm] at hgen
    simp only [if_true, Option.pure_def, Option.some_inj] at hgen
    subst hgen; simp at hc
  | false =>
    rw [hlm] at hgen
    simp only [if_false, Bool.false_eq_true, Option.bind_eq_bind] at hgen
    cases hoff : l.current_offset with
    | none => rw [hoff] at hgen; simp at hgen
    | some off =>
      rw [hoff] at hgen
      simp only [Option.some_bind] at hgen
      by_cases h0 : off = 0
      · rw [if_pos h0] at hgen
        simp only [Option.pure_def, Option.some_inj] at hgen
        subst hgen; simp at hc
      · rw [if_neg h0] at hgen
        cases hm : l.next_measure_mark with
        | some mark =>
          rw [hm] at hgen
          simp only [Option.pure_def, Option.some_inj] at hgen
          subst hgen; simp at hc
        | none =>
          rw [hm] at hgen
          simp only at hgen
          cases hncf : l.next_measure_cf with
          | none => rw [hncf] at hgen; simp at hgen
          | some ncf =>
            rw [hncf] at hgen
            simp only [Option.some_bind] at hgen
            cases hin : is_target_note_in_current_measure l with
            | none => rw [hin] at hgen; simp at hgen
            | some inCurrent =>
              rw [hin] at hgen
              simp only [Option.some_bind] at hgen
              cases inCurrent with
              | true =>
                simp only [if_true] at hgen
                cases hnb : available_neighbor_note_pitches l with
                | none => rw [hnb] at hgen; simp at hgen
                | some nps =>
                  rw [hnb] at hgen
                  simp only [Option.some_bind] at hgen
                  have hnpsav : ∀ p ∈ nps, p ∈ AVAILABLE_PITCHES_LIST := by
                    unfold available_neighbor_note_pitches at hnb
                    cases hprev : l.previous_latest_added_pitch with
                    | none => rw [hprev] at hnb; simp at hnb
                    | some prev =>
                      rw [hprev] at hnb
                      simp only [Option.bind_eq_bind, Option.some_bind] at hnb
                      exact neighborPitchesGo_subset hnb
                  obtain ⟨np, hnpmem, hbody⟩ := optionMapM_mem _ hgen c hc
                  cases hprev : l.previous_latest_added_pitch with
                  | none => rw [hprev] at hbody; simp at hbody
                  | some prev =>
                    rw [hprev] at hbody
                    simp only [Option.bind_eq_bind, Option.some_bind] at hbody
                    obtain ⟨hbuf, hmark', _⟩ := replaced_fields hbody
                    refine ⟨?_, ?_⟩
                    · intro q hq
                      rw [hbuf] at hq
                      unfold pitchesOfNotes at hq
                      rw [List.filterMap_append] at hq
                      rcases List.mem_append.mp hq with hq | hq
                      · exact hctx.1 q hq
                      · simp [make_annotated_note] at hq
                        rcases hq with hq | hq
                        · rw [hq]; exact hnpsav np hnpmem
                        · rw [hq]; exact prev_latest_available hctx hprev
                    · intro q hq; rw [hmark'] at hq; cases hq
              | false =>
                simp only [if_false, Bool.false_eq_true] at hgen
                have hmain : ∀ aps : List Pitch,
                    l.previous_latest_added_pitch.bind (fun prev =>
                      if prev ∈ aps then
                        (available_neighbor_note_pitches l).bind fun neighbors =>
                          optionMapM (fun np =>
                            l.replaced
                              (l.note_buffer ++
                                [make_annotated_note (some np)
                                  .neighborTone l.rythmn_type.note_duration])
                              (some prev) l.is_root_chord) neighbors
                      else pure []) = some out →
                    outputPitchesAvailable c := by
                  intro aps hmm
                  cases hprev : l.previous_latest_added_pitch with
                  | none => rw [hprev] at hmm; simp at hmm
                  | some prev =>
                    rw [hprev] at hmm
                    simp only [Option.some_bind] at hmm
                    have hprevav : prev ∈ AVAILABLE_PITCHES_LIST :=
                      prev_latest_available hctx hprev
                    by_cases hmem : prev ∈ aps
                    · rw [if_pos hmem] at hmm
                      cases hnb : available_neighbor_note_pitches l with
                      | none => rw [hnb] at hmm; simp at hmm
                      | some nps =>
                        rw [hnb] at hmm
                        simp only [Option.some_bind] at hmm
                        have hnpsav :
                            ∀ p ∈ nps, p ∈ AVAILABLE_PITCHES_LIST := by
                          unfold available_neighbor_note_pitches at hnb
                          rw [hprev] at hnb
                          simp only [Option.bind_eq_bind, Option.some_bind]
                            at hnb
                          exact neighborPitchesGo_subset hnb
                        obtain ⟨np, hnpmem, hbody⟩ :=
                          optionMapM_mem _ hmm c hc
                        obtain ⟨hbuf, hmark', _⟩ := replaced_fields hbody
                        refine ⟨?_, ?_⟩
                        · intro q hq
                          rw [hbuf] at hq
                          unfold pitchesOfNotes at hq
                          rw [List.filterMap_append] at hq
                          rcases List.mem_append.mp hq with hq | hq
                          · exact hctx.1 q hq
                          · simp [make_annotated_note] at hq
                            rw [hq]; exact hnpsav np hnpmem
                        · intro q hq
                          rw [hmark'] at hq
                          cases hq
                          exact hprevav
                    · rw [if_neg hmem] at hmm
                      simp only [Option.pure_def, Option.some_inj] at hmm
                      subst hmm; simp at hc
                cases hnl : l.is_next_last_measure <;> rw [hnl] at hgen <;>
                  simp only [if_true, if_false, Bool.false_eq_true] at hgen
                · cases hback : available_pitches l ncf with
                  | none => rw [hback] at hgen; simp at hgen
                  | some aps =>
                    rw [hback] at hgen
                    simp only [Option.some_bind] at hgen
                    exact hmain aps hgen
                · cases hback : end_available_pitches l ncf with
                  | none => rw [hback] at hgen; simp at hgen
                  | some aps =>
                    rw [hback] at hgen
                    simp only [Option.some_bind] at hgen
                    exact hmain aps hgen

/-- C8: the soprano range table is C4..A5, and every candidate pitch placed
into a note buffer or next-measure mark by any of the five move generators
(start-note, end-note, harmonic-tone, passing-tone, neighbor-tone) lies
within that range, provided the pitches already recorded in the input
context (its buffer, pending mark and previous measure — themselves outputs
of earlier generator steps) are among the generator's in-range scale
pitches. -/
theorem generator_pitches_within_voice_range :
    part_range PartId.soprano = (pC4, pA5) ∧
    ∀ (l : LocalMeasureContext) (out : List LocalMeasureContext)
      (c : LocalMeasureContext),
      ctxPitchesAvailable l →
      (searchStartNoteNextCtxs l = some out ∨
        searchEndNoteNextCtxs l = some out ∨
        searchHarmonicNoteNextCtxs l = some out ∨
        searchPassingToneNextCtxs l = some out ∨
        searchNeighborToneNextCtxs l = some out) →
      c ∈ out →
      (∀ p ∈ pitchesOfNotes c.note_buffer,
        is_in_part_range p PartId.soprano = true) ∧
      (∀ p, c.next_measure_mark = some p →
        is_in_part_range p PartId.soprano = true) := by
  have havr : ∀ p ∈ AVAILABLE_PITCHES_LIST,
      is_in_part_range p PartId.soprano = true := by decide
  refine ⟨by decide, ?_⟩
  intro l out c hctx hgen hc
  have hout : outputPitchesAvailable c := by
    rcases hgen with h | h | h | h | h
    · exact start_note_outputs_available h hc
    · exact end_note_outputs_available hctx.2.1 h hc
    · exact harmonic_outputs_available hctx h hc
    · exact passing_outputs_available hctx h hc
    · exact neighbor_outputs_available hctx h hc
  exact ⟨fun p hp => havr p (hout.1 p hp), fun p hp => havr p (hout.2 p hp)⟩

/-- C8 witness: the end-note generator at `ctx7` produces the candidate
`ctxEndC4`, whose buffer and mark are in the soprano range. -/
theorem generator_pitches_within_voice_range_witness :
    (∀ p ∈ pitchesOfNotes ctxEndC4.note_buffer,
      is_in_part_range p PartId.soprano = true) ∧
    (∀ p, ctxEndC4.next_measure_mark = some p →
      is_in_part_range p PartId.soprano = true) := by
  have hctx : ctxPitchesAvailable ctx7 := by
    refine ⟨by decide, ?_, ?_⟩
    · intro p hp; cases hp
    · intro pm hpm; cases hpm; decide
  exact generator_pitches_within_voice_range.2 ctx7 [ctxEndC4, ctxEndC5]
    ctxEndC4 hctx (Or.inr (Or.inl (by decide))) (by decide)

/-! ## C9 — `offset_note_at` / `offset_notes` round trip -/

theorem total_duration_cons (an : AnnotatedNote) (rest : List AnnotatedNote) :
    total_duration_of (an :: rest) =
      an.note.duration + total_duration_of rest := by
  simp [total_duration_of]

/-- In-range queries never raise (positive durations). -/
theorem offsetNoteAtGo_isSome :
    ∀ (notes : List AnnotatedNote) (cur o : ℤ),
      (∀ an ∈ notes, 0 < an.note.duration) →
      cur ≤ o → o < cur + total_duration_of notes →
      ∃ r, offsetNoteAtGo notes cur o = some r := by
  intro notes
  induction notes with
  | nil =>
    intro cur o _ hlo hhi
    simp [total_duration_of] at hhi
    omega
  | cons an rest ih =>
    intro cur o hpos hlo hhi
    rw [total_duration_cons] at hhi
    by_cases hin : cur ≤ o ∧ o < cur + an.note.duration
    · refine ⟨(match an.note.pitch with
               | none => none
               | some _ => some (cur, an)), ?_⟩
      simp [offsetNoteAtGo, hin]
    · have hnext : cur + an.note.duration ≤ o := by omega
      obtain ⟨r, hr⟩ := ih (cur + an.note.duration) o
        (fun a ha => hpos a (List.mem_cons_of_mem an ha)) hnext (by omega)
      exact ⟨r, by simp only [offsetNoteAtGo, if_neg hin]; exact hr⟩

/-- Queries at or beyond the total duration raise. -/
theorem offsetNoteAtGo_none :
    ∀ (notes : List AnnotatedNote) (cur o : ℤ),
      (∀ an ∈ notes, 0 ≤ an.note.duration) →
      cur + total_duration_of notes ≤ o →
      offsetNoteAtGo notes cur o = none := by
  intro notes
  induction notes with
  | nil => intro cur o _ _; simp [offsetNoteAtGo]
  | cons an rest ih =>
    intro cur o hpos hge
    rw [total_duration_cons] at hge
    have htrest : 0 ≤ total_duration_of rest := by
      have : ∀ a ∈ rest, 0 ≤ a.note.duration :=
        fun a ha => hpos a (List.mem_cons_of_mem an ha)
      unfold total_duration_of
      apply List.sum_nonneg
      intro x hx
      obtain ⟨a, ha, hax⟩ := List.mem_map.mp hx
      rw [← hax]; exact this a ha
    have hnot : ¬(cur ≤ o ∧ o < cur + an.note.duration) := by omega
    simp only [offsetNoteAtGo, if_neg hnot]
    exact ih (cur + an.note.duration) o
      (fun a ha => hpos a (List.mem_cons_of_mem an ha)) (by omega)

/-- Onsets in the offset map never precede the start offset. -/
theorem offsetNotesGo_ge :
    ∀ (notes : List AnnotatedNote) (cur : ℤ),
      (∀ an ∈ notes, 0 < an.note.duration) →
      ∀ pr ∈ offsetNotesGo notes cur, cur ≤ pr.1 := by
  intro notes
  induction notes with
  | nil => intro cur _ pr hpr; simp [offsetNotesGo] at hpr
  | cons an rest ih =>
    intro cur hpos pr hpr
    simp only [offsetNotesGo] at hpr
    rcases List.mem_cons.mp hpr with hpr | hpr
    · rw [hpr]
    · have := ih (cur + an.note.duration)
        (fun a ha => hpos a (List.mem_cons_of_mem an ha)) pr hpr
      have hd := hpos an (List.mem_cons_self an rest)
      omega

/-- Querying at an onset of the offset map recovers exactly that entry
(the onset and note for a sounding note, the rest marker for a rest). -/
theorem offsetNoteAtGo_at_onset :
    ∀ (notes : List AnnotatedNote) (cur : ℤ),
      (∀ an ∈ notes, 0 < an.note.duration) →
      ∀ pr ∈ offsetNotesGo notes cur,
        offsetNoteAtGo notes cur pr.1 =
          some (match pr.2.note.pitch with
                | none => none
                | some _ => some pr) := by
  intro notes
  induction notes with
  | nil => intro cur _ pr hpr; simp [offsetNotesGo] at hpr
  | cons an rest ih =>
    intro cur hpos pr hpr
    simp only [offsetNotesGo] at hpr
    rcases List.mem_cons.mp hpr with hpr | hpr
    · have hd := hpos an (List.mem_cons_self an rest)
      rw [hpr]
      simp only [offsetNoteAtGo]
      rw [if_pos (by constructor <;> omega)]
    · have hge := offsetNotesGo_ge rest (cur + an.note.duration)
        (fun a ha => hpos a (List.mem_cons_of_mem an ha)) pr hpr
      have hnot : ¬(cur ≤ pr.1 ∧ pr.1 < cur + an.note.duration) := by omega
      simp only [offsetNoteAtGo, if_neg hnot]
      exact ih (cur + an.note.duration)
        (fun a ha => hpos a (List.mem_cons_of_mem an ha)) pr hpr

/-- Every sounding-note answer of a query is an entry of the offset map and
covers the queried offset. -/
theorem offsetNoteAtGo_sound :
    ∀ (notes : List AnnotatedNote) (cur o onset : ℤ) (an : AnnotatedNote),
      offsetNoteAtGo notes cur o = some (some (onset, an)) →
      (onset, an) ∈ offsetNotesGo notes cur ∧ onset ≤ o ∧ o < onset + an.note.duration := by
  intro notes
  induction notes with
  | nil => intro cur o onset an h; simp [offsetNoteAtGo] at h
  | cons a rest ih =>
    intro cur o onset an h
    simp only [offsetNoteAtGo] at h
    split at h
    · cases hp : a.note.pitch with
      | none => rw [hp] at h; simp at h
      | some q =>
        rw [hp] at h
        simp only [Option.some_inj] at h
        cases h
        rename_i hin
        refine ⟨?_, hin.1, hin.2⟩
        simp [offsetNotesGo]
    · obtain ⟨hmem, hbound⟩ := ih (cur + a.note.duration) o onset an h
      exact ⟨by simp [offsetNotesGo]; right; exact hmem, hbound⟩

/-- C9: for an `AnnotatedMeasure` whose notes have positive durations (as
every generator-built measure does), querying the sounding note at an
offset O with 0 ≤ O < total duration returns a pitch or an explicit rest
and never raises; querying at or beyond the total duration raises; querying
at each onset of `offset_notes` recovers exactly that entry; and every
sounding answer is an entry of `offset_notes` covering the queried offset —
the onset map and the note sequence determine each other. -/
theorem offset_queries_roundtrip (m : AnnotatedMeasure)
    (hpos : ∀ an ∈ m.annotated_notes, 0 < an.note.duration) :
    (∀ o : ℤ, 0 ≤ o → o < total_duration_of m.annotated_notes →
      ∃ r, m.offset_note_at o = some r) ∧
    (∀ o : ℤ, total_duration_of m.annotated_notes ≤ o →
      m.offset_note_at o = none) ∧
    (∀ pr ∈ m.offset_notes,
      m.offset_note_at pr.1 =
        some (match pr.2.note.pitch with
              | none => none
              | some _ => some pr)) ∧
    (∀ (o onset : ℤ) (an : AnnotatedNote),
      m.offset_note_at o = some (some (onset, an)) →
      (onset, an) ∈ m.offset_notes ∧ onset ≤ o ∧
        o < onset + an.note.duration) := by
  refine ⟨?_, ?_, ?_, ?_⟩
  · intro o hlo hhi
    exact offsetNoteAtGo_isSome m.annotated_notes 0 o hpos hlo (by omega)
  · intro o hge
    exact offsetNoteAtGo_none m.annotated_notes 0 o
      (fun a ha => le_of_lt (hpos a ha)) (by omega)
  · intro pr hpr
    exact offsetNoteAtGo_at_onset m.annotated_notes 0 hpos pr hpr
  · intro o onset an h
    exact offsetNoteAtGo_sound m.annotated_notes 0 o onset an h

/-- The measure used as C9 witness: rest, G4, then a half-note C5. -/
def measureW9 : AnnotatedMeasure :=
  ⟨[make_annotated_note none .harmonicTone 1,
    make_annotated_note (some pG4) .harmonicTone 1,
    make_annotated_note (some pC5) .harmonicTone 2]⟩

/-- C9 witness: the round trip evaluated on `measureW9` at offsets 0, 1 and
beyond the total duration. -/
theorem offset_queries_roundtrip_witness :
    (∃ r, measureW9.offset_note_at 0 = some r) ∧
    measureW9.offset_note_at 4 = none ∧
    measureW9.offset_note_at 1 =
      some (some (1, make_annotated_note (some pG4) .harmonicTone 1)) := by
  have h := offset_queries_roundtrip measureW9 (by decide)
  refine ⟨h.1 0 (by decide) (by decide), h.2.1 4 (by decide), ?_⟩
  have h3 := h.2.2.1 (1, make_annotated_note (some pG4) .harmonicTone 1)
    (by decide)
  simpa using h3

/-! ## C3/C4 — traversal invariants -/

/-- The states whose `local_ctx` is `None`: piece-level validation and the
two piece-level terminals. -/
def State.isFinalPhase : State → Bool
  | .validatingAllMeasure _ => true
  | .endState _ => true
  | .pruned _ => true
  | _ => false

/-- Every completed measure sums to one whole note. -/
def measuresOK (g : GlobalContext) : Prop :=
  ∀ m ∈ g.completed_measures,
    total_duration_of m.annotated_notes = MEASURE_TOTAL_DURATION

/-- The traversal invariant for C3: the cantus firmus is never changed,
completed measures always total one whole note, and the piece-level states
only arise once the measure count matches the cantus firmus. -/
def Inv (cf : List Pitch) (s : State) : Prop :=
  s.globalCtx.cantus_firmus = cf ∧ measuresOK s.globalCtx ∧
    (s.isFinalPhase = true → s.globalCtx.is_measures_fulfilled = true)

/-- A successful `local_ctx_appended` appends exactly the fulfilled buffer. -/
theorem local_ctx_appended_spec {g : GlobalContext} {l : LocalMeasureContext}
    {g' : GlobalContext} (h : g.local_ctx_appended l = some g') :
    g'.cantus_firmus = g.cantus_firmus ∧
    g'.rythmn_type = g.rythmn_type ∧
    g'.completed_measures = g.completed_measures ++ [⟨l.note_buffer⟩] ∧
    l.is_buffer_fulfilled = true := by
  unfold GlobalContext.local_ctx_appended mkGlobalContext at h
  split at h
  · split at h
    · cases h; exact ⟨rfl, rfl, rfl, by assumption⟩
    · cases h
  · cases h

/-- Children of a `ChooseSearchState` keep the global context and are never
piece-level states. -/
theorem chooseSearch_children {g : GlobalContext} {l : LocalMeasureContext}
    {children : List State}
    (h : nextStates (State.chooseSearch g l) = some children) :
    ∀ s' ∈ children, s'.globalCtx = g ∧ s'.isFinalPhase = false := by
  simp only [nextStates, chooseSearchTriple] at h
  repeat' split at h
  all_goals
    first
    | exact Option.noConfusion h
    | (injection h with h; subst h; intro s' hs'; fin_cases hs' <;>
        exact ⟨rfl, rfl⟩)

/-- Children of the search states are `ChooseSearchState`s with the same
global context. -/
theorem searchState_children {g : GlobalContext} {children : List State}
    {genRes : Option (List LocalMeasureContext)}
    (h : genRes.map (List.map (State.chooseSearch g)) = some children) :
    ∀ s' ∈ children, ∃ l', s' = State.chooseSearch g l' := by
  intro s' hs'
  cases genRes with
  | none => cases h
  | some ctxs =>
    simp only [Option.map_some', Option.some_inj] at h
    subst h
    obtain ⟨l', _, hl'⟩ := List.mem_map.mp hs'
    exact ⟨l', hl'.symm⟩

/-- One step of `next_states` preserves the invariant. -/
theorem nextStates_preserves_inv {cf : List Pitch} {s s' : State}
    {children : List State} (hnext : nextStates s = some children)
    (hmem : s' ∈ children) (hinv : Inv cf s) : Inv cf s' := by
  cases s with
  | chooseSearch g l =>
    obtain ⟨hg, hph⟩ := chooseSearch_children hnext s' hmem
    exact ⟨by rw [hg]; exact hinv.1, by rw [hg]; exact hinv.2.1,
      fun hfin => absurd hfin (by rw [hph]; simp)⟩
  | searchingStartNote g l =>
    obtain ⟨l', hl'⟩ := searchState_children hnext s' hmem
    subst hl'
    exact ⟨hinv.1, hinv.2.1, fun hfin => by simp [State.isFinalPhase] at hfin⟩
  | searchingEndNote g l =>
    obtain ⟨l', hl'⟩ := searchState_children hnext s' hmem
    subst hl'
    exact ⟨hinv.1, hinv.2.1, fun hfin => by simp [State.isFinalPhase] at hfin⟩
  | searchingHarmonicNote g l =>
    obtain ⟨l', hl'⟩ := searchState_children hnext s' hmem
    subst hl'
    exact ⟨hinv.1, hinv.2.1, fun hfin => by simp [State.isFinalPhase] at hfin⟩
  | searchingPassingNote g l =>
    obtain ⟨l', hl'⟩ := searchState_children hnext s' hmem
    subst hl'
    exact ⟨hinv.1, hinv.2.1, fun hfin => by simp [State.isFinalPhase] at hfin⟩
  | searchingNeighborNote g l =>
    obtain ⟨l', hl'⟩ := searchState_children hnext s' hmem
    subst hl'
    exact ⟨hinv.1, hinv.2.1, fun hfin => by simp [State.isFinalPhase] at hfin⟩
  | validatingInMeasure g l =>
    simp only [nextStates] at hnext
    cases hv : validate l with
    | none => rw [hv] at hnext; simp at hnext
    | some v =>
      rw [hv] at hnext
      simp only [Option.bind_eq_bind, Option.some_bind] at hnext
      cases v with
      | false =>
        rw [if_pos (by simp)] at hnext
        injection hnext with hnext
        subst hnext
        simp only [List.mem_singleton] at hmem
        subst hmem
        exact ⟨hinv.1, hinv.2.1,
          fun hfin => by simp [State.isFinalPhase] at hfin⟩
      | true =>
        rw [if_neg (by simp)] at hnext
        cases happ : g.local_ctx_appended l with
        | none => rw [happ] at hnext; simp at hnext
        | some g' =>
          rw [happ] at hnext
          simp only [Option.some_bind] at hnext
          obtain ⟨hcf', hrt', hms', hful⟩ := local_ctx_appended_spec happ
          have hmok' : measuresOK g' := by
            intro m hm
            rw [hms'] at hm
            rcases List.mem_append.mp hm with hm | hm
            · exact hinv.2.1 m hm
            · simp only [List.mem_singleton] at hm
              subst hm
              have := of_decide_eq_true hful
              exact this
          have hcf2 : g'.cantus_firmus = cf := by rw [hcf']; exact hinv.1
          cases hmf : g'.is_measures_fulfilled with
          | true =>
            rw [hmf, if_pos rfl] at hnext
            injection hnext with hnext
            subst hnext
            simp only [List.mem_singleton] at hmem
            subst hmem
            exact ⟨hcf2, hmok', fun _ => hmf⟩
          | false =>
            rw [hmf, if_neg (by simp)] at hnext
            cases hl' : g'.new_local_measure_countext with
            | none => rw [hl'] at hnext; simp at hnext
            | some l' =>
              rw [hl'] at hnext
              simp only [Option.some_bind, Option.pure_def,
                Option.some_inj] at hnext
              subst hnext
              simp only [List.mem_singleton] at hmem
              subst hmem
              exact ⟨hcf2, hmok',
                fun hfin => by simp [State.isFinalPhase] at hfin⟩
  | measurePruned g l => cases hnext
  | validatingAllMeasure g =>
    simp only [nextStates] at hnext
    cases hv : all_measure_validate g with
    | none => rw [hv] at hnext; simp at hnext
    | some v =>
      rw [hv] at hnext
      simp only [Option.bind_eq_bind, Option.some_bind] at hnext
      have hful : g.is_measures_fulfilled = true := hinv.2.2 rfl
      cases v with
      | false =>
        rw [if_pos (by simp)] at hnext
        injection hnext with hnext
        subst hnext
        simp only [List.mem_singleton] at hmem
        subst hmem
        exact ⟨hinv.1, hinv.2.1, fun _ => hful⟩
      | true =>
        rw [if_neg (by simp)] at hnext
        injection hnext with hnext
        subst hnext
        simp only [List.mem_singleton] at hmem
        subst hmem
        exact ⟨hinv.1, hinv.2.1, fun _ => hful⟩
  | endState g => cases hnext
  | pruned g => cases hnext

/-- The invariant carries along the whole traversal. -/
theorem yields_preserves_inv {cf : List Pitch} {s t : State}
    (h : YieldsTerminal s t) (hinv : Inv cf s) : Inv cf t := by
  induction h with
  | endSelf g => exact hinv
  | prunedSelf g => exact hinv
  | step hterm hnext hmem _ ih =>
    exact ih (nextStates_preserves_inv hnext hmem hinv)

/-- C4: in the terminal-state traversal, a `MeasurePrunedState` yields
nothing (it is discarded immediately, so the search resumes from the
immediately preceding choice point rather than the start of the piece), a
`PrunedState` yields itself up to the top level, every yielded terminal is
an `EndState` or a `PrunedState`, and `final_states` filters the yields so
that only `EndState`s reach the caller. -/
theorem terminal_traversal_policy :
    (∀ (g : GlobalContext) (l : LocalMeasureContext) (t : State),
      ¬YieldsTerminal (State.measurePruned g l) t) ∧
    (∀ g : GlobalContext, YieldsTerminal (State.pruned g) (State.pruned g)) ∧
    (∀ s t : State, YieldsTerminal s t →
      (∃ g, t = State.endState g) ∨ ∃ g, t = State.pruned g) ∧
    (∀ s t : State, FinalYield s t → ∃ g, t = State.endState g) := by
  refine ⟨?_, ?_, ?_, ?_⟩
  · intro g l t h
    cases h with
    | step hterm _ _ _ => simp [State.isTraversalTerminal] at hterm
  · intro g
    exact YieldsTerminal.prunedSelf g
  · intro s t h
    induction h with
    | endSelf g => exact Or.inl ⟨g, rfl⟩
    | prunedSelf g => exact Or.inr ⟨g, rfl⟩
    | step _ _ _ _ ih => exact ih
  · intro s t h
    exact h.2

/-- C4 witness: the traversal policy instantiated at the C5 contexts — a
measure-pruned state yields nothing, a pruned state yields itself and is a
legitimate terminal. -/
theorem terminal_traversal_policy_witness :
    ¬YieldsTerminal (State.measurePruned gC5 lC5) (State.endState gC5) ∧
    YieldsTerminal (State.pruned gC5) (State.pruned gC5) ∧
    ((∃ g, State.pruned gC5 = State.endState g) ∨
      ∃ g, State.pruned gC5 = State.pruned g) :=
  ⟨terminal_traversal_policy.1 gC5 lC5 (State.endState gC5),
   terminal_traversal_policy.2.1 gC5,
   terminal_traversal_policy.2.2.1 (State.pruned gC5) (State.pruned gC5)
     (terminal_traversal_policy.2.1 gC5)⟩

/-- C3: every `EndState` yielded by the traversal from the engine's start
state carries exactly one completed measure per cantus-firmus pitch, and
every completed measure's note durations sum to exactly one whole note
(4 quarter-note units); `generate` maps exactly these `EndState`s to the
realizations handed to the caller. -/
theorem generate_yields_complete_measures
    (cf : List Pitch) (rt : RythmnType) (s0 t : State) (g : GlobalContext)
    (hstart : start_state cf rt = some s0)
    (hyield : YieldsTerminal s0 t)
    (hend : t = State.endState g) :
    g.completed_measures.length = cf.length ∧
    ∀ m ∈ g.completed_measures,
      total_duration_of m.annotated_notes = MEASURE_TOTAL_DURATION := by
  have hinv0 : Inv cf s0 := by
    unfold start_state new_global_context mkGlobalContext at hstart
    split at hstart
    · simp only [Option.bind_eq_bind, Option.some_bind] at hstart
      cases hl : GlobalContext.new_local_measure_countext ⟨cf, rt, [], none⟩ with
      | none => rw [hl] at hstart; simp at hstart
      | some l0 =>
        rw [hl] at hstart
        simp only [Option.some_bind, Option.pure_def, Option.some_inj]
          at hstart
        subst hstart
        refine ⟨rfl, ?_, ?_⟩
        · intro m hm; simp [State.globalCtx] at hm
        · intro hfin; simp [State.isFinalPhase] at hfin
    · simp at hstart
  have hinvt : Inv cf t := yields_preserves_inv hyield hinv0
  subst hend
  have hcf : g.cantus_firmus = cf := hinvt.1
  have hful : g.completed_measures.length = g.cantus_firmus.length := by
    have h2 := hinvt.2.2 rfl
    unfold GlobalContext.is_measures_fulfilled at h2
    exact of_decide_eq_true h2
  exact ⟨by rw [← hcf]; exact hful, hinvt.2.1⟩

/-! C3 witness: a complete concrete run for the cantus firmus [C3, D3]
under whole-note rhythm, realizing G4 then D4. -/

def cfW : List Pitch := [pC3, pD3]

def gW0 : GlobalContext := ⟨cfW, .wholeNote, [], none⟩

def lW0 : LocalMeasureContext :=
  ⟨none, none, pC3, some pD3, .wholeNote, true, false, true, [], none, none⟩

def lW1 : LocalMeasureContext :=
  ⟨none, none, pC3, some pD3, .wholeNote, true, false, true,
   [make_annotated_note (some pG4) .harmonicTone 4], some true, none⟩

def mW1 : AnnotatedMeasure := ⟨[make_annotated_note (some pG4) .harmonicTone 4]⟩

def gW1 : GlobalContext := ⟨cfW, .wholeNote, [mW1], none⟩

def lW2 : LocalMeasureContext :=
  ⟨some mW1, some pC3, pD3, none, .wholeNote, false, true, false, [], none,
   none⟩

def lW3 : LocalMeasureContext :=
  ⟨some mW1, some pC3, pD3, none, .wholeNote, false, true, false,
   [make_annotated_note (some pD4) .harmonicTone 4], some true, none⟩

def mW2 : AnnotatedMeasure := ⟨[make_annotated_note (some pD4) .harmonicTone 4]⟩

def gW2 : GlobalContext := ⟨cfW, .wholeNote, [mW1, mW2], none⟩

/-- C3 witness: the invariant theorem applied to the concrete run
`[C3, D3] ⟶ G4, D4`, whose traversal reaches an `EndState` with two
whole-note measures. -/
theorem generate_yields_complete_measures_witness :
    gW2.completed_measures.length = cfW.length ∧
    ∀ m ∈ gW2.completed_measures,
      total_duration_of m.annotated_notes = MEASURE_TOTAL_DURATION := by
  have h9 : YieldsTerminal (State.endState gW2) (State.endState gW2) :=
    YieldsTerminal.endSelf gW2
  have h8 : YieldsTerminal (State.validatingAllMeasure gW2)
      (State.endState gW2) :=
    @YieldsTerminal.step (State.validatingAllMeasure gW2)
      (State.endState gW2) (State.endState gW2) [State.endState gW2]
      (by decide) (by decide) (by decide) h9
  have h7 : YieldsTerminal (State.validatingInMeasure gW1 lW3)
      (State.endState gW2) :=
    @YieldsTerminal.step (State.validatingInMeasure gW1 lW3)
      (State.validatingAllMeasure gW2) (State.endState gW2)
      [State.validatingAllMeasure gW2]
      (by decide) (by decide) (by decide) h8
  have h6 : YieldsTerminal (State.chooseSearch gW1 lW3)
      (State.endState gW2) :=
    @YieldsTerminal.step (State.chooseSearch gW1 lW3)
      (State.validatingInMeasure gW1 lW3) (State.endState gW2)
      [State.validatingInMeasure gW1 lW3]
      (by decide) (by decide) (by decide) h7
  have h5 : YieldsTerminal (State.searchingEndNote gW1 lW2)
      (State.endState gW2) :=
    @YieldsTerminal.step (State.searchingEndNote gW1 lW2)
      (State.chooseSearch gW1 lW3) (State.endState gW2)
      [State.chooseSearch gW1 lW3,
       State.chooseSearch gW1
         ⟨some mW1, some pC3, pD3, none, .wholeNote, false, true, false,
          [make_annotated_note (some pD5) .harmonicTone 4], some true, none⟩]
      (by decide) (by decide) (by decide) h6
  have h4 : YieldsTerminal (State.chooseSearch gW1 lW2)
      (State.endState gW2) :=
    @YieldsTerminal.step (State.chooseSearch gW1 lW2)
      (State.searchingEndNote gW1 lW2) (State.endState gW2)
      [State.searchingEndNote gW1 lW2]
      (by decide) (by decide) (by decide) h5
  have h3 : YieldsTerminal (State.validatingInMeasure gW0 lW1)
      (State.endState gW2) :=
    @YieldsTerminal.step (State.validatingInMeasure gW0 lW1)
      (State.chooseSearch gW1 lW2) (State.endState gW2)
      [State.chooseSearch gW1 lW2]
      (by decide) (by decide) (by decide) h4
  have h2 : YieldsTerminal (State.chooseSearch gW0 lW1)
      (State.endState gW2) :=
    @YieldsTerminal.step (State.chooseSearch gW0 lW1)
      (State.validatingInMeasure gW0 lW1) (State.endState gW2)
      [State.validatingInMeasure gW0 lW1]
      (by decide) (by decide) (by decide) h3
  have h1 : YieldsTerminal (State.searchingStartNote gW0 lW0)
      (State.endState gW2) :=
    @YieldsTerminal.step (State.searchingStartNote gW0 lW0)
      (State.chooseSearch gW0 lW1) (State.endState gW2)
      [State.chooseSearch gW0
         ⟨none, none, pC3, some pD3, .wholeNote, true, false, true,
          [make_annotated_note (some pC4) .harmonicTone 4], some true, none⟩,
       State.chooseSearch gW0 lW1,
       State.chooseSearch gW0
         ⟨none, none, pC3, some pD3, .wholeNote, true, false, true,
          [make_annotated_note (some pC5) .harmonicTone 4], some true, none⟩]
      (by decide) (by decide) (by decide) h2
  have h0 : YieldsTerminal (State.chooseSearch gW0 lW0)
      (State.endState gW2) :=
    @YieldsTerminal.step (State.chooseSearch gW0 lW0)
      (State.searchingStartNote gW0 lW0) (State.endState gW2)
      [State.searchingStartNote gW0 lW0]
      (by decide) (by decide) (by decide) h1
  exact generate_yields_complete_measures cfW .wholeNote
    (State.chooseSearch gW0 lW0) (State.endState gW2) gW2 (by decide) h0 rfl

end Counterpoint
